import Mathlib

/-!
Verification of the email-import-api scanning pipeline against its
natural-language specification.

The definitions below are a shallow embedding of the JavaScript source:

* `src/worker/scanWorker.js` (BullMQ worker variant) — session/chunk
  lifecycle, termination test, counter updates;
* `src/lib/eventStore.js` (dedupe-key variant, lines 57..130) — idempotent
  event writes and the SSE polling loop;
* `src/lib/detect.js` — header bulk classification, next-renewal
  extraction, candidate scoring and within-chunk aggregation;
* `src/lib/gmail.js` — `fetchRetry`;
* `src/lib/imap.js` — the IMAP cursor codec and uid filtering.

JavaScript numbers that are used as counters, ids or timestamps are
modelled as `Nat`/`Int`; nullable values as `Option`; strings as `String`
(lists of characters); throwing operations as `Option`/`Except`-valued
functions.
-/

namespace EmailImport

/-! ## Session / worker model (src/worker/scanWorker.js, first variant)

The worker variant used by the queue pipeline (`server.js` +
`queue/scanQueue.js`).  A chunk job loads the session, short-circuits on
terminal statuses, marks a queued session running, runs `scanGmail`,
and on success applies the progress patch and the termination test
(lines 138..214 of the file). -/

/-- Session status enum: `queued | running | done | canceled | error`. -/
inductive SessionStatus
  | queued
  | running
  | done
  | canceled
  | error
deriving DecidableEq, Repr

/-- The slice of a scan session mutated by the worker:
`status`, `pages`, `scanned_total`, `found_total`, `cursor`. -/
structure Session where
  status : SessionStatus
  pages : Nat
  scannedTotal : Nat
  foundTotal : Nat
  cursor : Option String
deriving DecidableEq, Repr

/-- The options consulted by the termination test.  The worker reads
`Number(opts.maxPages ?? 6)` and `Number(opts.maxCandidates ?? 60)`. -/
structure ScanOptions where
  maxPages : Option Nat
  maxCandidates : Option Nat
deriving DecidableEq, Repr

/-- `Number(opts.maxPages ?? 6)` from scanWorker.js. -/
def ScanOptions.maxPagesVal (o : ScanOptions) : Nat := o.maxPages.getD 6

/-- `Number(opts.maxCandidates ?? 60)` from scanWorker.js. -/
def ScanOptions.maxCandidatesVal (o : ScanOptions) : Nat := o.maxCandidates.getD 60

/-- Result of one successful `scanGmail` chunk, as consumed by the worker:
`result.nextCursor`, `Number(result.stats.scanned || 0)` and
`upsertCandidates(...).inserted` (both are non-negative counts). -/
structure ChunkResult where
  nextCursor : Option String
  scannedDelta : Nat
  foundDelta : Nat
deriving DecidableEq, Repr

/-- Event types written by the worker during one chunk job. -/
inductive WorkerEvent
  | progressStarting
  | progress (pages : Nat) (cursor : Option String)
  | candidates (pages : Nat) (cursor : Option String)
  | doneEvent
  | scanFailed
deriving DecidableEq, Repr

/-- Outcome of one chunk job: the updated session, whether the next chunk
was enqueued (`enqueueScanChunk`), and the events written. -/
structure JobOutcome where
  session : Session
  enqueuedNext : Bool
  events : List WorkerEvent
deriving DecidableEq, Repr

/-- `["done","canceled","error"].includes(session.status)` — the
short-circuit test at the top of the job handler. -/
def SessionStatus.isTerminal : SessionStatus → Bool
  | .done => true
  | .canceled => true
  | .error => true
  | _ => false

/-- One chunk job of the BullMQ scan worker (scanWorker.js, first
variant): short-circuit on terminal status; `queued → running`; on a
`scanGmail` error mark the session `error` and emit `scan_failed`; on
success add `pages+1`, `scannedDelta`, `foundDelta`, store the new
cursor, emit `progress` (and `candidates` when `foundDelta > 0`), then
apply the termination test
`!nextCursor || nextPages >= maxPages || nextFound >= maxCandidates`;
when done mark `done` and emit the `done` event, otherwise enqueue the
next chunk. -/
def scanWorkerJob (opts : ScanOptions) (s : Session)
    (result : Except String ChunkResult) : JobOutcome :=
  if s.status.isTerminal then
    { session := s, enqueuedNext := false, events := [] }
  else
    let startEvents : List WorkerEvent :=
      if s.status = .queued then [.progressStarting] else []
    let s1 : Session :=
      if s.status = .queued then { s with status := .running } else s
    match result with
    | .error _ =>
        { session := { s1 with status := .error }
          enqueuedNext := false
          events := startEvents ++ [.scanFailed] }
    | .ok r =>
        let nextPages := s1.pages + 1
        let nextScanned := s1.scannedTotal + r.scannedDelta
        let nextFound := s1.foundTotal + r.foundDelta
        let nextCursor := r.nextCursor
        let s2 : Session :=
          { s1 with
            pages := nextPages
            scannedTotal := nextScanned
            foundTotal := nextFound
            cursor := nextCursor }
        let evs := startEvents ++ [.progress nextPages nextCursor] ++
          (if r.foundDelta > 0 then [.candidates nextPages nextCursor] else [])
        let isDone : Bool :=
          nextCursor.isNone || decide (nextPages ≥ opts.maxPagesVal) ||
            decide (nextFound ≥ opts.maxCandidatesVal)
        if isDone then
          { session := { s2 with status := .done }
            enqueuedNext := false
            events := evs ++ [.doneEvent] }
        else
          { session := s2, enqueuedNext := true, events := evs }

/-- The session-mutating operations of the pipeline: a chunk job run by
the worker (with its options and `scanGmail` result), and the cancel
route of server.js, which moves a queued/running session to `canceled`
and touches no counter. -/
inductive SessionOp
  | jobRun (opts : ScanOptions) (result : Except String ChunkResult)
  | cancel
deriving Repr

/-- Apply one operation to a session. -/
def applySessionOp (s : Session) : SessionOp → Session
  | .jobRun opts result => (scanWorkerJob opts s result).session
  | .cancel =>
      if s.status = .queued ∨ s.status = .running then
        { s with status := .canceled }
      else s

/-- Apply a sequence of operations (the session history between two
observation times). -/
def applySessionOps (s : Session) (ops : List SessionOp) : Session :=
  ops.foldl applySessionOp s

/-! ## Event store (src/lib/eventStore.js, dedupe-key variant)

`writeEvent` inserts a row into `scan_events`; when a `dedupeKey` is
given it uses `upsert(row, { onConflict: "session_id,dedupe_key" })`,
i.e. a row whose `(session_id, dedupe_key)` already exists is replaced
in place; otherwise a plain insert.  (Postgres treats NULL keys as
distinct, matching the code's branch on `dedupeKey`.) -/

/-- One row of the `scan_events` table as built by `writeEvent`. -/
structure EvtRow where
  sessionId : String
  userId : String
  eventType : String
  payload : String
  dedupeKey : Option String
deriving DecidableEq, Repr

/-- Postgres upsert on the unique index `(session_id, dedupe_key)`:
replace the existing conflicting row, else append. -/
def upsertRow : List EvtRow → EvtRow → List EvtRow
  | [], r => [r]
  | x :: xs, r =>
      if x.sessionId = r.sessionId ∧ x.dedupeKey = r.dedupeKey then r :: xs
      else x :: upsertRow xs r

/-- `writeEvent` (eventStore.js lines 61..81): upsert on
`(session_id, dedupe_key)` when a dedupe key is present, plain insert
otherwise. -/
def writeEvent (store : List EvtRow) (r : EvtRow) : List EvtRow :=
  match r.dedupeKey with
  | some _ => upsertRow store r
  | none => store ++ [r]

/-- Number of persisted rows with the given `(sessionId, dedupeKey)`. -/
def dedupeCount (store : List EvtRow) (sid k : String) : Nat :=
  (store.filter (fun x => decide (x.sessionId = sid ∧ x.dedupeKey = some k))).length

/-! ## Stable sorting helper

JS `Array.prototype.sort` is stable; both call sites sort by a numeric
comparator (`(a, b) => a.id - b.id` style ordering for the event query,
`(a, b) => (b.confidence || 0) - (a.confidence || 0)` in the
aggregator).  A stable sort by such a comparator is the unique stable
ascending sort by the corresponding integer key (descending orders use
the negated key), modelled here as a stable insertion sort. -/

/-- Insert `a` before the first element with a strictly larger key
(stable: `a` goes after existing elements with an equal key). -/
def insByKey {α : Type} (key : α → Int) (a : α) : List α → List α
  | [] => [a]
  | b :: bs => if key a < key b then a :: b :: bs else b :: insByKey key a bs

/-- Stable ascending sort by an integer key. -/
def sortByKey {α : Type} (key : α → Int) (l : List α) : List α :=
  l.foldl (fun acc a => insByKey key a acc) []

/-! ## SSE polling loop (src/lib/eventStore.js `streamEvents`, lines 83..130)

The loop keeps a cursor (`Number(afterId) || 0`), and while neither the
`cancel()` flag nor the abort signal is set it selects rows with
`id > cursor` ordered by id ascending with `limit(200)`, forwards them
(updating `cursor = Math.max(cursor, evt.id)`), writes a ping, sleeps
`heartbeatMs` and repeats.  The model takes the session's event rows as
a fixed list, the cancel/abort flags as a predicate on the iteration
index, and a fuel bound on the number of iterations observed. -/

/-- An event row as selected by the poll:
`select("id,event_type,payload,created_at")`. -/
structure LogEvt where
  id : Nat
  eventType : String
  payload : String
deriving DecidableEq, Repr

/-- One poll: rows with `id > cursor`, ordered by id ascending,
`limit(200)`. -/
def pollEvents (store : List LogEvt) (cursor : Nat) : List LogEvt :=
  (sortByKey (fun e : LogEvt => (e.id : Int)) (store.filter (fun e => cursor < e.id))).take 200

/-- `cursor = Math.max(cursor, evt.id)` folded over a forwarded batch. -/
def advanceCursor (cursor : Nat) (batch : List LogEvt) : Nat :=
  batch.foldl (fun c e => max c e.id) cursor

/-- Result of observing the polling loop: the batch forwarded by each
executed poll, and the number of polls executed. -/
structure StreamRun where
  batches : List (List LogEvt)
  polls : Nat
deriving DecidableEq, Repr

/-- The polling loop, stepped: stop when the cancel/abort flag is set
(checked at the top of the `while`, before the query) or when the
observation fuel runs out; otherwise poll, forward, advance the cursor
and continue. -/
def streamRunAux (store : List LogEvt) (canceled : Nat → Bool) :
    Nat → Nat → Nat → StreamRun
  | 0, _, _ => ⟨[], 0⟩
  | fuel + 1, i, cursor =>
      if canceled i then ⟨[], 0⟩
      else
        let batch := pollEvents store cursor
        let rest := streamRunAux store canceled fuel (i + 1)
          (advanceCursor cursor batch)
        ⟨batch :: rest.batches, rest.polls + 1⟩

/-- `streamEvents` observed for at most `fuel` iterations, starting from
`afterId` (the loop initializes `cursor = Number(afterId) || 0`). -/
def streamEventsRun (store : List LogEvt) (canceled : Nat → Bool)
    (fuel afterId : Nat) : StreamRun :=
  streamRunAux store canceled fuel 0 afterId

/-- Events forwarded over the whole observation, in forwarding order. -/
def StreamRun.forwarded (r : StreamRun) : List LogEvt :=
  r.batches.flatten

/-- A `done` or `error` event — terminal from the client's viewpoint. -/
def isTerminalEvt (e : LogEvt) : Bool :=
  e.eventType = "done" || e.eventType = "error"

/-- Index of the first poll whose batch contained a terminal event. -/
def firstTerminalPoll (batches : List (List LogEvt)) : Option Nat :=
  batches.findIdx? (fun b => b.any isTerminalEvt)

/-! ## String helpers shared by the detection engine (src/lib/detect.js)

`safeLower` is `(s || "").toString().toLowerCase()`; `includes` is JS
substring containment. -/

/-- JS `toLowerCase` (ASCII behaviour, which is all the call sites use). -/
def jsToLower (s : String) : String := (s.toList.map Char.toLower).asString

/-- Whether `needle` occurs at the head of `hay`. -/
def leadsList : List Char → List Char → Bool
  | [], _ => true
  | _ :: _, [] => false
  | a :: as, b :: bs => a == b && leadsList as bs

/-- Whether `needle` occurs anywhere in `hay`. -/
def listIncludes (needle : List Char) : List Char → Bool
  | [] => leadsList needle []
  | h :: t => leadsList needle (h :: t) || listIncludes needle t

/-- JS `hay.includes(needle)`. -/
def strIncludes (hay needle : String) : Bool :=
  listIncludes needle.toList hay.toList

/-! ## Header bulk classification (detect.js `headerIsBulk`, lines 79..90)

The source builds `h[safeLower(k)] = String(v || "")` over the header
entries (later entries overwrite earlier ones under the same lowercased
key) and then reads four headers with `safeLower(h[...] || "")`. -/

/-- `h[safeLower(key)]` after the build loop: the value of the last
entry whose lowercased name matches, defaulting to `""`. -/
def headerGet (headers : List (String × String)) (key : String) : String :=
  headers.foldl (fun acc kv => if jsToLower kv.1 = key then kv.2 else acc) ""

/-- `headerIsBulk` from detect.js: Precedence contains bulk/list/junk,
or Auto-Submitted contains auto-generated/auto-replied, or
`hasList = !!(listId || listUnsub)` — note that a `List-Unsubscribe`
value alone makes `hasList` true. -/
def headerIsBulk (headers : List (String × String)) : Bool :=
  let precedence := jsToLower (headerGet headers "precedence")
  let autoSubmitted := jsToLower (headerGet headers "auto-submitted")
  let listId := jsToLower (headerGet headers "list-id")
  let listUnsub := jsToLower (headerGet headers "list-unsubscribe")
  let bulk := strIncludes precedence "bulk" || strIncludes precedence "list" ||
    strIncludes precedence "junk"
  let auto := strIncludes autoSubmitted "auto-generated" ||
    strIncludes autoSubmitted "auto-replied"
  let hasList := !(listId == "") || !(listUnsub == "")
  bulk || auto || hasList

/-- Modelled from the spec (section 4.B): `bulkHeader` if any of
Precedence contains bulk/list/junk; Auto-Submitted contains
auto-generated/auto-replied; List-Id present — and List-Unsubscribe
alone is not bulk.  Used to compare the spec's rule with the code. -/
def specBulkHeaderRule (headers : List (String × String)) : Bool :=
  let precedence := jsToLower (headerGet headers "precedence")
  let autoSubmitted := jsToLower (headerGet headers "auto-submitted")
  let listId := jsToLower (headerGet headers "list-id")
  let bulk := strIncludes precedence "bulk" || strIncludes precedence "list" ||
    strIncludes precedence "junk"
  let auto := strIncludes autoSubmitted "auto-generated" ||
    strIncludes autoSubmitted "auto-replied"
  bulk || auto || !(listId == "")

/-! ## Gmail request retry (src/lib/gmail.js `fetchRetry`, lines 66..80)

The loop: `if (shouldStop?.()) throw DEADLINE`; fetch with the
per-operation timeout; return the response when `res.ok`; retry when the
status is one of 429/500/502/503/504 and `attempt < tries - 1`, after
`sleep(jitter(250 * attempt))` (`jitter(ms) = ms + random 0..119`);
otherwise return the (non-OK) response.  The model supplies the status
of each attempt, the deadline flag before each attempt, and the jitter
draw of each retry as oracles. -/

/-- `res.ok`: HTTP status in [200, 300). -/
def resOk (status : Nat) : Bool := 200 ≤ status && status < 300

/-- `[429, 500, 502, 503, 504].includes(res.status)` — the retryable
set of `fetchRetry` (403 is absent). -/
def retryableStatus (status : Nat) : Bool :=
  status = 429 || status = 500 || status = 502 || status = 503 ||
    status = 504

/-- Outcome of `fetchRetry`: the returned response status or the thrown
`DEADLINE`, the number of fetches performed, and the backoff delays
slept between attempts. -/
structure FetchOutcome where
  result : Except String Nat
  fetches : Nat
  delays : List Nat
deriving Repr

/-- The retry loop; `idx` is the 0-based attempt counter and `remaining`
is `tries - 1 - attempt`, the number of retries still allowed.  With no
retries remaining the response is returned whether or not it is OK or
retryable (`attempt < tries - 1` fails), so the 0 case folds the two
returns together. -/
def fetchRetryGo (statuses : Nat → Nat) (stop : Nat → Bool)
    (jit : Nat → Nat) : Nat → Nat → FetchOutcome
  | idx, 0 =>
      if stop idx then ⟨.error "DEADLINE", 0, []⟩
      else ⟨.ok (statuses idx), 1, []⟩
  | idx, r + 1 =>
      if stop idx then ⟨.error "DEADLINE", 0, []⟩
      else
        let st := statuses idx
        if resOk st then ⟨.ok st, 1, []⟩
        else if retryableStatus st then
          let delay := 250 * (idx + 1) + jit (idx + 1)
          let rest := fetchRetryGo statuses stop jit (idx + 1) r
          ⟨rest.result, rest.fetches + 1, delay :: rest.delays⟩
        else ⟨.ok st, 1, []⟩

/-- `fetchRetry(url, init, timeoutMs, shouldStop, tries = 3)`. -/
def fetchRetry (statuses : Nat → Nat) (stop : Nat → Bool)
    (jit : Nat → Nat) (tries : Nat := 3) : FetchOutcome :=
  fetchRetryGo statuses stop jit 0 (tries - 1)

/-! ## Next-renewal extraction (detect.js `extractNextRenewal`, lines 201..219)

The function matches, over `subject\ntext\nhtml`,
first the ISO regex `\b(20\d{2})-(0\d|1[0-2])-(0\d|[12]\d|3[01])\b`
(returning the matched text), then the month regex
`\b(Jan|...|Dec)[a-z]*\s+([0-3]?\d),\s*(20\d{2})\b` case-insensitively
(returning `year-mm-dd` with the day left-padded).  Both regexes are
hand-compiled below; all their alternations are fixed-width except the
day group, whose one step of backtracking is inlined. -/

/-- JS regex `\w` (for `\b` boundaries). -/
def isWordChar (c : Char) : Bool := c.isAlpha || c.isDigit || c == '_'

/-- A word boundary before the match: start of input or a non-word
character. -/
def boundaryBefore : Option Char → Bool
  | none => true
  | some c => !(isWordChar c)

/-- A word boundary after the match: end of input or a non-word
character. -/
def boundaryAfter : List Char → Bool
  | [] => true
  | c :: _ => !(isWordChar c)

/-- Month group of the ISO regex: `0\d|1[0-2]`. -/
def isoMonthOk (m1 m2 : Char) : Bool :=
  (m1 == '0' && m2.isDigit) ||
  (m1 == '1' && (m2 == '0' || m2 == '1' || m2 == '2'))

/-- Day group of the ISO regex: `0\d|[12]\d|3[01]`. -/
def isoDayOk (d1 d2 : Char) : Bool :=
  (d1 == '0' && d2.isDigit) ||
  ((d1 == '1' || d1 == '2') && d2.isDigit) ||
  (d1 == '3' && (d2 == '0' || d2 == '1'))

/-- Try the ISO regex at the current position (fixed width 10). -/
def isoMatchAt (prev : Option Char) : List Char → Option (List Char)
  | c1 :: c2 :: y3 :: y4 :: h1 :: m1 :: m2 :: h2 :: d1 :: d2 :: rest =>
      if boundaryBefore prev && c1 == '2' && c2 == '0' && y3.isDigit &&
          y4.isDigit && h1 == '-' && isoMonthOk m1 m2 && h2 == '-' &&
          isoDayOk d1 d2 && boundaryAfter rest then
        some [c1, c2, y3, y4, h1, m1, m2, h2, d1, d2]
      else none
  | _ => none

/-- Leftmost ISO match (JS `s.match(...)` without `g`). -/
def findIso (prev : Option Char) : List Char → Option (List Char)
  | [] => none
  | c :: rest =>
      match isoMatchAt prev (c :: rest) with
      | some m => some m
      | none => findIso (some c) rest

/-- The month-name table of the source, keyed by the lowercased 3-letter
capture: jan..dec mapped to "01".."12". -/
def monthTable : List (List Char × List Char) :=
  [(['j','a','n'], ['0','1']), (['f','e','b'], ['0','2']),
   (['m','a','r'], ['0','3']), (['a','p','r'], ['0','4']),
   (['m','a','y'], ['0','5']), (['j','u','n'], ['0','6']),
   (['j','u','l'], ['0','7']), (['a','u','g'], ['0','8']),
   (['s','e','p'], ['0','9']), (['o','c','t'], ['1','0']),
   (['n','o','v'], ['1','1']), (['d','e','c'], ['1','2'])]

/-- Case-insensitive 3-letter match of a month name at the head. -/
def monthNameAt (l : List Char) : Option (List Char × List Char) :=
  match l with
  | a :: b :: c :: rest =>
      match monthTable.find? (fun e =>
          e.1 == [a.toLower, b.toLower, c.toLower]) with
      | some e => some (e.2, rest)
      | none => none
  | _ => none

/-- JS regex `\s` (the characters reachable in practice). -/
def isSpaceChar (c : Char) : Bool :=
  c == ' ' || c == Char.ofNat 9 || c == Char.ofNat 10 ||
  c == Char.ofNat 13 || c == Char.ofNat 11 || c == Char.ofNat 12 ||
  c == Char.ofNat 160

/-- Day group `([0-3]?\d),` with its one backtracking step: prefer the
two-digit day (first digit 0..3) when a comma follows, else the
one-digit day followed by a comma. -/
def dayCommaAt : List Char → Option (List Char × List Char)
  | c1 :: c2 :: rest =>
      if (c1 == '0' || c1 == '1' || c1 == '2' || c1 == '3') && c2.isDigit
          then
        match rest with
        | q :: rest2 =>
            if q == ',' then some ([c1, c2], rest2)
            else none
        | [] => none
      else if c1.isDigit && c2 == ',' then some ([c1], rest)
      else none
  | [_] => none
  | [] => none

/-- `String(day).padStart(2, "0")`. -/
def padDay2 (day : List Char) : List Char :=
  if day.length == 1 then '0' :: day else day

/-- Try the month regex at the current position; on success return the
source's `year-mm-dd` string. -/
def monthMatchAt (prev : Option Char) (l : List Char) : Option String :=
  if boundaryBefore prev then
    match monthNameAt l with
    | some (mm, rest1) =>
        let rest2 := rest1.dropWhile (fun c => c.isAlpha)
        match rest2 with
        | c :: rest3 =>
            if isSpaceChar c then
              let rest4 := rest3.dropWhile isSpaceChar
              match dayCommaAt rest4 with
              | some (day, rest5) =>
                  let rest6 := rest5.dropWhile isSpaceChar
                  match rest6 with
                  | g1 :: g2 :: g3 :: g4 :: rest7 =>
                      if g1 == '2' && g2 == '0' && g3.isDigit &&
                          g4.isDigit && boundaryAfter rest7 then
                        some (([g1, g2, g3, g4] ++ ['-'] ++ mm ++ ['-'] ++
                          padDay2 day).asString)
                      else none
                  | _ => none
              | none => none
            else none
        | [] => none
    | none => none
  else none

/-- Leftmost month-regex match. -/
def findMonth (prev : Option Char) : List Char → Option String
  | [] => none
  | c :: rest =>
      match monthMatchAt prev (c :: rest) with
      | some m => some m
      | none => findMonth (some c) rest

/-- `extractNextRenewal({subject, text, html})`: the ISO match of the
concatenated haystack, else the month match converted to ISO, else
null.  No clock is consulted and no keyword proximity is required. -/
def extractNextRenewal (subject text html : String) : Option String :=
  let s := subject ++ "\n" ++ text ++ "\n" ++ html
  match findIso none s.toList with
  | some m => some m.asString
  | none => findMonth none s.toList

/-- Shape of every value `extractNextRenewal` can return:
`20YY-MM-DD` with the ISO month group and a day whose first digit is
0..3 (the month branch can produce days up to 39). -/
def isoShaped (s : String) : Bool :=
  match s.toList with
  | ['2', '0', a, b, '-', m1, m2, '-', d1, d2] =>
      a.isDigit && b.isDigit && isoMonthOk m1 m2 &&
      (d1 == '0' || d1 == '1' || d1 == '2' || d1 == '3') && d2.isDigit
  | _ => false

/-- Days since 1970-01-01 of a civil date (Hinnant's algorithm), used to
state the spec's recency window. -/
def daysFromCivil (y m d : Int) : Int :=
  let y2 := if m ≤ 2 then y - 1 else y
  let era := (if 0 ≤ y2 then y2 else y2 - 399) / 400
  let yoe := y2 - era * 400
  let mp := (m + 9) % 12
  let doy := (153 * mp + 2) / 5 + d - 1
  let doe := yoe * 365 + yoe / 4 - yoe / 100 + doy
  era * 146097 + doe - 719468

/-- Day number of an ISO `YYYY-MM-DD` string. -/
def isoToDays (s : String) : Option Int :=
  match s.toList with
  | [a, b, c, d, h1, m1, m2, h2, d1, d2] =>
      if a.isDigit && b.isDigit && c.isDigit && d.isDigit && h1 == '-' &&
          m1.isDigit && m2.isDigit && h2 == '-' && d1.isDigit &&
          d2.isDigit then
        some (daysFromCivil
          (1000 * (a.toNat - 48) + 100 * (b.toNat - 48) +
            10 * (c.toNat - 48) + (d.toNat - 48))
          (10 * (m1.toNat - 48) + (m2.toNat - 48))
          (10 * (d1.toNat - 48) + (d2.toNat - 48)))
      else none
  | _ => none

/-! ## Candidate confidence (detect.js `buildCandidate`, lines 452..507)

The scoring tail of `buildCandidate`, taken over the signals the earlier
part of the function computed: `resolved` (from `resolveMerchant`), the
classifier flags, `platformExtract`, `amount` (from `extractAmount`,
always positive when present), `nextRenewal`, the raw `cadence` from
`extractCadence`, and `isTrial`.  Amounts are modelled in cents. -/

/-- The slice of `resolveMerchant`'s result read by the scoring code:
`resolved.confidence || 0`, `resolved.reason`,
`resolved.signals?.personalSenderDomain`. -/
structure ResolvedInfo where
  confidence : Int
  reason : Option String
  personalSenderDomain : Bool
deriving DecidableEq, Repr

/-- The signals feeding the confidence computation. -/
structure BuildSignals where
  resolved : ResolvedInfo
  likelyTransactional : Bool
  bulkHeader : Bool
  platformExtract : Option String
  amount : Option Int
  nextRenewal : Option String
  cadence0 : Option String
  isTrial : Bool
deriving DecidableEq, Repr

/-- `clamp(n, min, max) = Math.max(min, Math.min(max, n))`. -/
def clampInt (n lo hi : Int) : Int := max lo (min hi n)

/-- JS truthiness of a nullable string (null and `""` are falsy). -/
def jsTruthyOptStr : Option String → Bool
  | some s => !(s == "")
  | none => false

/-- One `if (cond) { confidence += delta; reason.push(msg) }` step of
the scoring code. -/
def applyBonus (cond : Bool) (delta : Int) (msg : String) :
    Int × List String → Int × List String
  | (c, r) => if cond then (c + delta, r ++ [msg]) else (c, r)

/-- The confidence/reasons computation of `buildCandidate` (lines
452..507): start from `Math.min(60, resolved.confidence || 0)` (and the
resolver reason), apply the additive content signals in source order,
clamp to [0, 100], cap at 55 when amount, renewal, accepted cadence and
trial are all absent, and return null below the floor (35 for trials,
else 45).  The cadence is accepted only when a renewal date or
transactional language backs it, matching the
`if (cadence && (nextRenewal || likelyTransactional))` guard that
otherwise nulls the cadence. -/
def buildConfidence (sig : BuildSignals) : Option (Int × List String) :=
  let s0 : Int × List String :=
    (0 + min 60 sig.resolved.confidence,
     if jsTruthyOptStr sig.resolved.reason then
       ["Resolver: " ++ sig.resolved.reason.getD ""] else [])
  let cadenceAccepted := jsTruthyOptStr sig.cadence0 &&
    (jsTruthyOptStr sig.nextRenewal || sig.likelyTransactional)
  let s7 :=
    applyBonus cadenceAccepted 4 "Detected cadence"
      (applyBonus (jsTruthyOptStr sig.nextRenewal) 8
        "Found renewal/expiry date"
        (applyBonus (sig.amount.isSome && sig.likelyTransactional) 10
          "Found amount near billing keywords"
          (applyBonus (jsTruthyOptStr sig.platformExtract) 10
            "Extracted merchant from platform email"
            (applyBonus sig.resolved.personalSenderDomain (-15)
              "Sender domain looks consumer"
              (applyBonus sig.bulkHeader (-10) "Bulk/list header detected"
                (applyBonus sig.likelyTransactional 12
                  "Transactional language" s0))))))
  let conf8 := clampInt s7.1 0 100
  let weak := !sig.amount.isSome && !(jsTruthyOptStr sig.nextRenewal) &&
    !cadenceAccepted && !sig.isTrial
  let conf9 := if weak then min conf8 55 else conf8
  let floor : Int := if sig.isTrial then 35 else 45
  if conf9 < floor then none else some (conf9, s7.2)

/-- The closed-form additive value of the confidence computation (used
to state the amended claim): one clamped sum of the signal bonuses, then
the weak cap. -/
def codeConfidenceFormula (sig : BuildSignals) : Int :=
  let cadenceAccepted := jsTruthyOptStr sig.cadence0 &&
    (jsTruthyOptStr sig.nextRenewal || sig.likelyTransactional)
  let base := 0 + min 60 sig.resolved.confidence
    + (if sig.likelyTransactional then 12 else 0)
    + (if sig.bulkHeader then (-10 : Int) else 0)
    + (if sig.resolved.personalSenderDomain then (-15 : Int) else 0)
    + (if jsTruthyOptStr sig.platformExtract then 10 else 0)
    + (if sig.amount.isSome && sig.likelyTransactional then 10 else 0)
    + (if jsTruthyOptStr sig.nextRenewal then 8 else 0)
    + (if cadenceAccepted then 4 else 0)
  let clamped := clampInt base 0 100
  let weak := !sig.amount.isSome && !(jsTruthyOptStr sig.nextRenewal) &&
    !cadenceAccepted && !sig.isTrial
  if weak then min clamped 55 else clamped

/-- Modelled from the spec (section 4.D step 7, as quoted by the claim):
resolver confidence scaled by 0.6 and capped at 60, +12 transactional,
+10 platform extract, +10 amount AND transactional, +8 nextRenewal,
+4 cadence, +18 when the resolver reason is fallback-domain with strong
billing proof, −10 bulkHeader, −15 consumer sender, −30 on a
resolver/keyword conflict (the conflict flag does not exist in the
code's signals and is passed separately). -/
def specClaimConfidence (sig : BuildSignals) (conflict : Bool) : Int :=
  let strongBillingProof := (sig.amount.isSome && sig.likelyTransactional)
    || jsTruthyOptStr sig.nextRenewal
  min 60 (sig.resolved.confidence * 6 / 10)
    + (if sig.likelyTransactional then 12 else 0)
    + (if jsTruthyOptStr sig.platformExtract then 10 else 0)
    + (if sig.amount.isSome && sig.likelyTransactional then 10 else 0)
    + (if jsTruthyOptStr sig.nextRenewal then 8 else 0)
    + (if jsTruthyOptStr sig.cadence0 then 4 else 0)
    + (if (sig.resolved.reason == some "fallback-domain") &&
        strongBillingProof then 18 else 0)
    - (if sig.bulkHeader then 10 else 0)
    - (if sig.resolved.personalSenderDomain then 15 else 0)
    - (if conflict then 30 else 0)

/-! ## Within-chunk aggregation (detect.js `aggregateCandidates`, lines 325..374)

Groups raw candidates by `merchant|plan|currency|amount` (a JS `Map`,
which preserves insertion order), keeps the max-confidence
representative per group, infers a cadence from the evidence dates,
fills a missing renewal date from the group, boosts or caps the
confidence, drops the `_evidence` payload, sorts by descending
confidence (stable) and truncates to `maxCandidates`.  Amounts are in
cents. -/

/-- The candidate fields read or written by the aggregator. -/
structure Candidate where
  merchant : Option String
  plan : Option String
  amount : Option Int
  currency : Option String
  cadence : Option String
  nextRenewal : Option String
  confidence : Int
  reason : List String
  eventCount : Option Nat
  evidenceDateMs : Option Int
deriving DecidableEq, Repr

/-- JS `x || d` for a nullable string. -/
def jsOrStr (o : Option String) (d : String) : String :=
  match o with
  | some s => if s == "" then d else s
  | none => d

/-- `String(Math.round(amount * 100) / 100)` for a cent-valued amount:
the JS decimal rendering of `cents / 100`. -/
def centsToString (n : Int) : String :=
  let sign := if n < 0 then "-" else ""
  let m := n.natAbs
  let whole := toString (m / 100)
  let frac := m % 100
  if frac = 0 then sign ++ whole
  else if frac % 10 = 0 then
    sign ++ whole ++ "." ++ toString (frac / 10)
  else if frac < 10 then
    sign ++ whole ++ ".0" ++ toString frac
  else sign ++ whole ++ "." ++ toString frac

/-- The grouping key
`merchantKey|planKey|currency|amountKey` of the aggregator. -/
def candidateKey (c : Candidate) : String :=
  let merchantKey := jsToLower (jsOrStr c.merchant "unknown")
  let planKey := jsToLower (jsOrStr c.plan "")
  let amountKey := match c.amount with
    | some a => if a = 0 then "" else centsToString a
    | none => ""
  merchantKey ++ "|" ++ planKey ++ "|" ++ jsOrStr c.currency "" ++ "|" ++
    amountKey

/-- Truthiness of `c._evidence?.dateMs`. -/
def evidenceDateTruthy (c : Candidate) : Bool :=
  match c.evidenceDateMs with
  | some d => !(d == 0)
  | none => false

/-- One group of the `groups` map. -/
structure AggGroup where
  best : Candidate
  dates : List Int
  evidence : List Candidate
deriving DecidableEq, Repr

/-- The per-candidate group update: push the evidence date when truthy,
push the candidate, replace `best` when strictly more confident. -/
def updateGroup (g : AggGroup) (c : Candidate) : AggGroup :=
  let g1 : AggGroup :=
    { g with
      dates := if evidenceDateTruthy c then
        g.dates ++ [c.evidenceDateMs.getD 0] else g.dates
      evidence := g.evidence ++ [c] }
  if g.best.confidence < c.confidence then { g1 with best := c } else g1

/-- `groups.set(key, {best: c, dates: [], evidence: []})` when absent,
then the in-place update — over an insertion-ordered association
list. -/
def addToGroups (groups : List (String × AggGroup)) (c : Candidate) :
    List (String × AggGroup) :=
  let key := candidateKey c
  if groups.any (fun kv => kv.1 == key) then
    groups.map (fun kv => if kv.1 == key then (kv.1, updateGroup kv.2 c)
      else kv)
  else groups ++ [(key, updateGroup ⟨c, [], []⟩ c)]

/-- The grouping pass of the aggregator. -/
def buildGroups (raw : List Candidate) : List (String × AggGroup) :=
  raw.foldl addToGroups []

/-- Consecutive differences of a list (`sorted[i] - sorted[i-1]`). -/
def gaps : List Int → List Int
  | a :: b :: rest => (b - a) :: gaps (b :: rest)
  | _ => []

/-- `inferCadenceFromDates`: with ≥ 2 dates, take the median of the
sorted gaps and map day ranges to a cadence
(`days = median / 86400000`; the comparisons are stated on the
millisecond values). -/
def inferCadenceFromDates (dates : List Int) : Option String :=
  if dates.length < 2 then none
  else
    let sorted := sortByKey (fun d : Int => d) dates
    let diffs := sortByKey (fun d : Int => d) (gaps sorted)
    let median := diffs.getD (diffs.length / 2) 0
    if 6 * 86400000 ≤ median ∧ median ≤ 8 * 86400000 then some "weekly"
    else if 25 * 86400000 ≤ median ∧ median ≤ 35 * 86400000 then
      some "monthly"
    else if 80 * 86400000 ≤ median ∧ median ≤ 100 * 86400000 then
      some "quarterly"
    else if 330 * 86400000 ≤ median ∧ median ≤ 400 * 86400000 then
      some "yearly"
    else none

/-- `evidence.map(e => e.nextRenewal).filter(Boolean).sort()[0]` — the
lexicographically least truthy renewal string. -/
def minTruthyRenewal (evidence : List Candidate) : Option String :=
  (evidence.filterMap (fun e => e.nextRenewal)).filter
      (fun s => !(s == "")) |>.foldl
    (fun acc s =>
      match acc with
      | none => some s
      | some m => some (if s < m then s else m)) none

/-- The per-group merge of the aggregator's output loop. -/
def processGroup (g : AggGroup) : Candidate :=
  let inferredCadence := inferCadenceFromDates g.dates
  let m0 := g.best
  let m1 : Candidate :=
    { m0 with
      cadence := if jsTruthyOptStr m0.cadence then m0.cadence
        else if inferredCadence.isSome then inferredCadence else none }
  let m2 : Candidate :=
    if jsTruthyOptStr m1.nextRenewal then m1
    else
      match minTruthyRenewal g.evidence with
      | some nr => { m1 with nextRenewal := some nr }
      | none => m1
  let m3 : Candidate := { m2 with eventCount := some g.evidence.length }
  let m4 : Candidate :=
    if 2 ≤ g.dates.length ∧ inferredCadence.isSome then
      { m3 with
        confidence := clampInt (m3.confidence + 10) 0 100
        reason := m3.reason ++
          ["Cadence inferred from " ++ toString g.dates.length ++
            " emails"] }
    else m3
  let m5 : Candidate :=
    if g.dates.length ≤ 1 ∧ ¬ (jsTruthyOptStr m4.nextRenewal = true) ∧
        ¬ (jsTruthyOptStr m4.cadence = true) then
      { m4 with
        confidence := min m4.confidence 70
        reason := m4.reason ++ ["Single email evidence (capped confidence)"] }
    else m4
  { m5 with evidenceDateMs := none }

/-- `aggregateCandidates(rawCandidates, maxCandidates = 50)`: group,
merge, sort by descending confidence (the stable JS sort with comparator
`(b.confidence||0) - (a.confidence||0)`, i.e. the stable ascending sort
by the negated confidence) and truncate. -/
def aggregateCandidates (raw : List Candidate)
    (maxCandidates : Nat := 50) : List Candidate :=
  let out := (buildGroups raw).map (fun kv => processGroup kv.2)
  (sortByKey (fun c => -c.confidence) out).take maxCandidates

/-- What a second application of the aggregator does to one of its own
output candidates (a singleton group with no evidence dates): normalize
an untruthy cadence to null, reset `eventCount` to 1, drop `_evidence`,
and — when neither renewal nor cadence is present — cap the confidence
at 70 and append another single-evidence reason. -/
def reprocessSingle (c : Candidate) : Candidate :=
  let cad2 := if jsTruthyOptStr c.cadence then c.cadence else none
  let c1 : Candidate := { c with cadence := cad2, eventCount := some 1 }
  if ¬ (jsTruthyOptStr c1.nextRenewal = true) ∧
      ¬ (jsTruthyOptStr cad2 = true) then
    { c1 with
      confidence := min c1.confidence 70
      reason := c1.reason ++ ["Single email evidence (capped confidence)"]
      evidenceDateMs := none }
  else { c1 with evidenceDateMs := none }

/-! ## IMAP cursor codec (src/lib/imap.js, lines 136..156)

`encodeCursor(uid) = Buffer.from(JSON.stringify({uid})).toString("base64url")`;
`decodeCursor` base64url-decodes, UTF-8-decodes, `JSON.parse`s, reads
`data.uid`, converts with `Number` and keeps it only when finite — with
every failure path caught and mapped to `undefined`.  Bytes are `Nat`
values < 256.  The Node pieces are modelled as follows: the base64url
decoder is lenient (non-alphabet characters are skipped, a trailing
lone character is dropped); UTF-8 decoding is modelled byte-wise with
U+FFFD for non-ASCII bytes (multi-byte sequences can never produce the
ASCII characters the JSON grammar needs, so failures agree); the JSON
parser handles null/true/false, integer numbers, escape-free strings,
arrays and objects (non-integer numbers and escapes fail to parse where
`JSON.parse` would succeed — such payloads are never produced by
`encodeCursor`); `Number(x)` on a parsed value handles numbers,
integer-string/empty-string, booleans and null exactly, and maps the
remaining exotic cases to NaN. -/

/-- Decimal digits of a natural number (`JSON.stringify` rendering). -/
def decimalDigitsAux : Nat → Nat → List Char
  | 0, _ => []
  | fuel + 1, n =>
      if n < 10 then [Char.ofNat (48 + n)]
      else decimalDigitsAux fuel (n / 10) ++ [Char.ofNat (48 + n % 10)]

/-- Decimal rendering of a natural number. -/
def decimalDigits (n : Nat) : List Char := decimalDigitsAux (n + 1) n

/-- Value of a decimal digit run. -/
def decDigitsVal (l : List Char) : Nat :=
  l.foldl (fun a c => a * 10 + (c.toNat - 48)) 0

/-- `JSON.stringify({uid})` for a natural uid. -/
def jsonOfUid (uid : Nat) : String :=
  (Char.ofNat 123 :: Char.ofNat 34 :: 'u' :: 'i' :: 'd' ::
    Char.ofNat 34 :: ':' :: (decimalDigits uid ++ [Char.ofNat 125])).asString

/-- UTF-8 bytes of an ASCII string (all strings built here are ASCII). -/
def strBytes (s : String) : List Nat := s.toList.map Char.toNat

/-- Byte-wise lenient UTF-8 decoding: ASCII bytes decode to themselves,
anything else to U+FFFD. -/
def bytesToStringLenient (bytes : List Nat) : String :=
  (bytes.map (fun b => if b < 128 then Char.ofNat b
    else Char.ofNat 0xFFFD)).asString

/-- The base64url alphabet. -/
def b64Alphabet (i : Nat) : Char :=
  if i < 26 then Char.ofNat (65 + i)
  else if i < 52 then Char.ofNat (97 + i - 26)
  else if i < 62 then Char.ofNat (48 + i - 52)
  else if i = 62 then '-'
  else '_'

/-- The sextet value of a character (the lenient Node decoder also
accepts the standard `+`/`/` alphabet; everything else is skipped). -/
def b64Value (c : Char) : Option Nat :=
  let n := c.toNat
  if 65 ≤ n ∧ n ≤ 90 then some (n - 65)
  else if 97 ≤ n ∧ n ≤ 122 then some (n - 97 + 26)
  else if 48 ≤ n ∧ n ≤ 57 then some (n - 48 + 52)
  else if c == '-' ∨ c == '+' then some 62
  else if c == '_' ∨ c == '/' then some 63
  else none

/-- Base64 encoding of a byte list (no padding, as `base64url`). -/
def b64EncodeChunks : List Nat → List Char
  | a :: b :: c :: rest =>
      b64Alphabet (a / 4) :: b64Alphabet (a % 4 * 16 + b / 16) ::
      b64Alphabet (b % 16 * 4 + c / 64) :: b64Alphabet (c % 64) ::
      b64EncodeChunks rest
  | [a, b] =>
      [b64Alphabet (a / 4), b64Alphabet (a % 4 * 16 + b / 16),
       b64Alphabet (b % 16 * 4)]
  | [a] => [b64Alphabet (a / 4), b64Alphabet (a % 4 * 16)]
  | [] => []

/-- `Buffer.toString("base64url")`. -/
def base64urlEncode (bytes : List Nat) : String :=
  (b64EncodeChunks bytes).asString

/-- Byte reassembly from sextet values (a lone trailing sextet is
dropped, as Node does). -/
def b64DecodeVals : List Nat → List Nat
  | a :: b :: c :: d :: rest =>
      (a * 4 + b / 16) :: (b % 16 * 16 + c / 4) :: (c % 4 * 64 + d) ::
        b64DecodeVals rest
  | [a, b, c] => [a * 4 + b / 16, b % 16 * 16 + c / 4]
  | [a, b] => [a * 4 + b / 16]
  | [_] => []
  | [] => []

/-- `Buffer.from(s, "base64url")`. -/
def base64urlDecode (s : String) : List Nat :=
  b64DecodeVals (s.toList.filterMap b64Value)

/-- Parsed JSON values. -/
inductive Json
  | null
  | bool (b : Bool)
  | num (n : Int)
  | str (s : String)
  | arr (xs : List Json)
  | obj (kvs : List (String × Json))
deriving Repr

/-- JSON whitespace. -/
def jsonWs (c : Char) : Bool :=
  c == ' ' || c == Char.ofNat 9 || c == Char.ofNat 10 || c == Char.ofNat 13

/-- String body after the opening quote: characters up to the closing
quote; escape sequences are not modelled (they make the parse fail). -/
def parseStringBody : List Char → Option (String × List Char)
  | [] => none
  | c :: rest =>
      if c == Char.ofNat 34 then some ("", rest)
      else if c == Char.ofNat 92 then none
      else
        match parseStringBody rest with
        | some (s, r2) => some (⟨c :: s.toList⟩, r2)
        | none => none

/-- Integer number body: a digit run not followed by `.`/`e`/`E`
(non-integer JSON numbers are not modelled). -/
def parseNumBody (l : List Char) : Option (Nat × List Char) :=
  let ds := l.takeWhile (fun c => c.isDigit)
  if ds.isEmpty then none
  else
    let rest := l.dropWhile (fun c => c.isDigit)
    match rest with
    | c :: _ =>
        if c == '.' || c == 'e' || c == 'E' then none
        else some (decDigitsVal ds, rest)
    | [] => some (decDigitsVal ds, rest)

mutual

/-- A JSON value, by recursion on a fuel bound. -/
def parseValue : Nat → List Char → Option (Json × List Char)
  | 0, _ => none
  | fuel + 1, l =>
      match l.dropWhile jsonWs with
      | [] => none
      | c :: rest =>
          if c == Char.ofNat 123 then
            match rest.dropWhile jsonWs with
            | c2 :: r2 =>
                if c2 == Char.ofNat 125 then some (Json.obj [], r2)
                else parseObjItems fuel (c2 :: r2) []
            | [] => none
          else if c == '[' then
            match rest.dropWhile jsonWs with
            | c2 :: r2 =>
                if c2 == ']' then some (Json.arr [], r2)
                else parseArrItems fuel (c2 :: r2) []
            | [] => none
          else if c == Char.ofNat 34 then
            match parseStringBody rest with
            | some (s, r2) => some (Json.str s, r2)
            | none => none
          else if c == 't' then
            match rest with
            | 'r' :: 'u' :: 'e' :: r2 => some (Json.bool true, r2)
            | _ => none
          else if c == 'f' then
            match rest with
            | 'a' :: 'l' :: 's' :: 'e' :: r2 => some (Json.bool false, r2)
            | _ => none
          else if c == 'n' then
            match rest with
            | 'u' :: 'l' :: 'l' :: r2 => some (Json.null, r2)
            | _ => none
          else if c == '-' then
            match parseNumBody rest with
            | some (n, r2) => some (Json.num (-(n : Int)), r2)
            | none => none
          else
            match parseNumBody (c :: rest) with
            | some (n, r2) => some (Json.num (n : Int), r2)
            | none => none

/-- Object members. -/
def parseObjItems : Nat → List Char → List (String × Json) →
    Option (Json × List Char)
  | 0, _, _ => none
  | fuel + 1, l, acc =>
      match l.dropWhile jsonWs with
      | c :: rest =>
          if c == Char.ofNat 34 then
            match parseStringBody rest with
            | some (k, r2) =>
                match r2.dropWhile jsonWs with
                | ':' :: r3 =>
                    match parseValue fuel r3 with
                    | some (v, r4) =>
                        match r4.dropWhile jsonWs with
                        | ',' :: r5 => parseObjItems fuel r5 (acc ++ [(k, v)])
                        | c2 :: r5 =>
                            if c2 == Char.ofNat 125 then
                              some (Json.obj (acc ++ [(k, v)]), r5)
                            else none
                        | [] => none
                    | none => none
                | _ => none
            | none => none
          else none
      | [] => none

/-- Array elements. -/
def parseArrItems : Nat → List Char → List Json →
    Option (Json × List Char)
  | 0, _, _ => none
  | fuel + 1, l, acc =>
      match parseValue fuel l with
      | some (v, r2) =>
          match r2.dropWhile jsonWs with
          | ',' :: r3 => parseArrItems fuel r3 (acc ++ [v])
          | c2 :: r3 =>
              if c2 == ']' then some (Json.arr (acc ++ [v]), r3)
              else none
          | [] => none
      | none => none

end

/-- `JSON.parse`: a full-input value (trailing whitespace allowed). -/
def jsonParse (s : String) : Option Json :=
  match parseValue (s.length + 2) s.toList with
  | some (v, rest) =>
      if (rest.dropWhile jsonWs).isEmpty then some v else none
  | none => none

/-- JS object field read with `JSON.parse` duplicate-key semantics (the
last pair wins). -/
def jsObjGet (kvs : List (String × Json)) (k : String) : Option Json :=
  kvs.foldl (fun acc kv => if kv.1 == k then some kv.2 else acc) none

/-- `data.uid`: reading a property of `null` throws (caught by the
caller); on other non-objects it is `undefined`. -/
def jsGetUid : Json → Except Unit (Option Json)
  | Json.obj kvs => .ok (jsObjGet kvs "uid")
  | Json.null => .error ()
  | _ => .ok none

/-- `Number(x)` followed by the `Number.isFinite` test: `none` is NaN or
missing.  Strings convert when empty (0) or purely decimal; other
strings and the exotic array/object cases are mapped to NaN. -/
def jsNumberOfUid : Option Json → Option Int
  | none => none
  | some (Json.num n) => some n
  | some (Json.str s) =>
      if s == "" then some 0
      else if s.toList.all (fun c => c.isDigit) then
        some ((decDigitsVal s.toList : Nat) : Int)
      else none
  | some (Json.bool b) => some (if b then 1 else 0)
  | some Json.null => some 0
  | some (Json.arr _) => none
  | some (Json.obj _) => none

/-- `encodeCursor(uid)`. -/
def encodeCursor (uid : Nat) : String :=
  base64urlEncode (strBytes (jsonOfUid uid))

/-- `decodeCursor(cursor)`: total — every failure of the decode, parse,
property read or conversion yields `undefined` (`none`). -/
def decodeCursor (cursor : Option String) : Option Int :=
  match cursor with
  | none => none
  | some s =>
      if s == "" then none
      else
        match jsonParse (bytesToStringLenient (base64urlDecode s)) with
        | none => none
        | some j =>
            match jsGetUid j with
            | .error _ => none
            | .ok f =>
                match jsNumberOfUid f with
                | none => none
                | some n => some n

/-- The uid filtering of `scanImap` (lines 52..55): sort ascending, then
`if (startAfterUid) uids = uids.filter(u => u > startAfterUid)` — note
the truthiness test, under which a decoded uid of 0 disables the
filter. -/
def scanUids (uids : List Nat) (cursor : Option String) : List Nat :=
  let sorted := sortByKey (fun u : Nat => (u : Int)) uids
  match decodeCursor cursor with
  | some v => if v = 0 then sorted
      else sorted.filter (fun u => v < (u : Int))
  | none => sorted

end EmailImport


namespace EmailImport

/-! ## Worker lifecycle theorems -/

/-- Claim C1.  For every scan-chunk job that completes without error (on a
non-terminal session), the session is marked `done` if and only if the
resulting cursor is null, or the updated pages count reaches `maxPages`,
or the updated `foundTotal` reaches `maxCandidates`; in particular a
session whose `foundTotal` reaches `maxCandidates` terminates even when
the driver returned a non-null cursor, and otherwise the next chunk is
enqueued. -/
theorem scanChunk_done_iff (opts : ScanOptions) (s : Session) (r : ChunkResult)
    (h : s.status.isTerminal = false) :
    ((scanWorkerJob opts s (.ok r)).session.status = .done ↔
      (r.nextCursor = none ∨ opts.maxPagesVal ≤ s.pages + 1 ∨
        opts.maxCandidatesVal ≤ s.foundTotal + r.foundDelta)) ∧
    ((scanWorkerJob opts s (.ok r)).enqueuedNext = true ↔
      ¬ (r.nextCursor = none ∨ opts.maxPagesVal ≤ s.pages + 1 ∨
          opts.maxCandidatesVal ≤ s.foundTotal + r.foundDelta)) ∧
    (∀ c, r.nextCursor = some c →
      opts.maxCandidatesVal ≤ s.foundTotal + r.foundDelta →
      (scanWorkerJob opts s (.ok r)).session.status = .done) := by
  have hnd : s.status ≠ .done := by
    intro e; rw [e] at h; simp [SessionStatus.isTerminal] at h
  unfold scanWorkerJob
  simp only [h, Bool.false_eq_true, if_false]
  by_cases hq : s.status = .queued <;>
    simp only [hq, if_true, if_false, ite_true, ite_false] <;>
  · rw [show ∀ p q t : Prop, (p ∨ q ∨ t) = ((p ∨ q) ∨ t) from
      fun p q t => (or_assoc (a := p) (b := q) (c := t)).symm.eq ]
    refine ⟨?_, ?_, ?_⟩
    · split
      next hcond =>
        simp only [Bool.or_eq_true, decide_eq_true_eq,
          Option.isNone_iff_eq_none] at hcond
        simpa using hcond
      next hcond =>
        simp only [Bool.or_eq_true, decide_eq_true_eq,
          Option.isNone_iff_eq_none, not_or] at hcond
        constructor
        · intro habs
          simp only [] at habs
          first
          | exact absurd habs (by simp)
          | exact absurd habs hnd
        · intro hdisj
          rcases hdisj with (he | hp) | hf
          · exact absurd he hcond.1.1
          · exact absurd hp hcond.1.2
          · exact absurd hf hcond.2
    · split
      next hcond =>
        simp only [Bool.or_eq_true, decide_eq_true_eq,
          Option.isNone_iff_eq_none] at hcond
        exact iff_of_false (by simp) (not_not_intro hcond)
      next hcond =>
        simp only [Bool.or_eq_true, decide_eq_true_eq,
          Option.isNone_iff_eq_none, not_or] at hcond
        simp only [true_iff]
        intro hdisj
        rcases hdisj with (he | hp) | hf
        · exact absurd he hcond.1.1
        · exact absurd hp hcond.1.2
        · exact absurd hf hcond.2
    · intro c hc hfound
      split
      next => rfl
      next hcond =>
        simp only [Bool.or_eq_true, decide_eq_true_eq,
          Option.isNone_iff_eq_none, not_or] at hcond
        exact absurd hfound hcond.2

/-- Witness for `scanChunk_done_iff`: a concrete running session whose
`foundTotal` reaches `maxCandidates` in this chunk is marked done even
though the driver returned a non-null cursor. -/
theorem scanChunk_done_iff_witness :
    (scanWorkerJob ⟨some 6, some 3⟩ ⟨.running, 1, 10, 2, some "abc"⟩
      (.ok ⟨some "next", 5, 2⟩)).session.status = .done :=
  (scanChunk_done_iff ⟨some 6, some 3⟩ ⟨.running, 1, 10, 2, some "abc"⟩
    ⟨some "next", 5, 2⟩ (by decide)).2.2 "next" rfl (by decide)

/-- Helper: a single session operation never decreases the counters. -/
theorem applySessionOp_counters_le (s : Session) (op : SessionOp) :
    s.pages ≤ (applySessionOp s op).pages ∧
    s.scannedTotal ≤ (applySessionOp s op).scannedTotal ∧
    s.foundTotal ≤ (applySessionOp s op).foundTotal := by
  cases op with
  | cancel =>
      simp only [applySessionOp]
      split <;> simp
  | jobRun opts result =>
      simp only [applySessionOp]
      cases result with
      | error e =>
          simp only [scanWorkerJob]
          split_ifs <;> simp
      | ok r =>
          simp only [scanWorkerJob]
          split_ifs <;> simp

/-- Helper: counters are monotone along any operation sequence. -/
theorem applySessionOps_counters_le (s : Session) (ops : List SessionOp) :
    s.pages ≤ (applySessionOps s ops).pages ∧
    s.scannedTotal ≤ (applySessionOps s ops).scannedTotal ∧
    s.foundTotal ≤ (applySessionOps s ops).foundTotal := by
  induction ops generalizing s with
  | nil => simp [applySessionOps]
  | cons op rest ih =>
      have h1 := applySessionOp_counters_le s op
      have h2 := ih (applySessionOp s op)
      simp only [applySessionOps, List.foldl_cons] at h2 ⊢
      exact ⟨le_trans h1.1 h2.1, le_trans h1.2.1 h2.2.1,
        le_trans h1.2.2 h2.2.2⟩

/-- Claim C3.  `pages`, `scannedTotal` and `foundTotal` are monotonically
non-decreasing under every sequence of session operations (chunk jobs,
failures, cancels), and each successful chunk on a non-terminal session
increments `pages` by exactly one and adds the chunk deltas
(`scannedDelta` and `foundDelta` are `Nat` counts, hence non-negative). -/
theorem session_counters_monotone :
    (∀ (s : Session) (ops : List SessionOp),
      s.pages ≤ (applySessionOps s ops).pages ∧
      s.scannedTotal ≤ (applySessionOps s ops).scannedTotal ∧
      s.foundTotal ≤ (applySessionOps s ops).foundTotal) ∧
    (∀ (opts : ScanOptions) (s : Session) (r : ChunkResult),
      s.status.isTerminal = false →
      (scanWorkerJob opts s (.ok r)).session.pages = s.pages + 1 ∧
      (scanWorkerJob opts s (.ok r)).session.scannedTotal
        = s.scannedTotal + r.scannedDelta ∧
      (scanWorkerJob opts s (.ok r)).session.foundTotal
        = s.foundTotal + r.foundDelta) := by
  refine ⟨applySessionOps_counters_le, ?_⟩
  intro opts s r h
  simp only [scanWorkerJob, h, Bool.false_eq_true, if_false]
  split_ifs <;> simp

/-- Witness for `session_counters_monotone`: a concrete history and a
concrete successful chunk. -/
theorem session_counters_monotone_witness :
    (let s : Session := ⟨.queued, 0, 0, 0, none⟩
     let ops : List SessionOp :=
       [.jobRun ⟨none, none⟩ (.ok ⟨some "c1", 7, 2⟩), .cancel]
     s.pages ≤ (applySessionOps s ops).pages ∧
     s.scannedTotal ≤ (applySessionOps s ops).scannedTotal ∧
     s.foundTotal ≤ (applySessionOps s ops).foundTotal) ∧
    (scanWorkerJob ⟨none, none⟩ ⟨.running, 3, 10, 4, some "x"⟩
        (.ok ⟨some "y", 5, 1⟩)).session.pages = 3 + 1 :=
  ⟨session_counters_monotone.1 _ _,
   (session_counters_monotone.2 ⟨none, none⟩ ⟨.running, 3, 10, 4, some "x"⟩
      ⟨some "y", 5, 1⟩ (by decide)).1⟩

/-! ## Event-write idempotence theorems -/

/-- Helper: upserting the same row twice is the same as once. -/
theorem upsertRow_idem (l : List EvtRow) (r : EvtRow) :
    upsertRow (upsertRow l r) r = upsertRow l r := by
  induction l with
  | nil => simp [upsertRow]
  | cons x xs ih =>
      by_cases hx : x.sessionId = r.sessionId ∧ x.dedupeKey = r.dedupeKey
      · simp [upsertRow, hx]
      · simp [upsertRow, hx, ih]

/-- Helper: the dedupe count of a cons cell. -/
theorem dedupeCount_cons (x : EvtRow) (xs : List EvtRow) (sid k : String) :
    dedupeCount (x :: xs) sid k
      = (if x.sessionId = sid ∧ x.dedupeKey = some k then 1 else 0)
        + dedupeCount xs sid k := by
  simp only [dedupeCount, List.filter_cons]
  by_cases h : x.sessionId = sid ∧ x.dedupeKey = some k <;>
    simp [h, Nat.add_comm]

/-- Helper: after an upsert of a row carrying `(sid, some k)`, the store
holds exactly one `(sid, k)` row, provided it held at most one before. -/
theorem dedupeCount_upsertRow (l : List EvtRow) (r : EvtRow) (sid k : String)
    (hr : r.sessionId = sid) (hk : r.dedupeKey = some k)
    (hl : dedupeCount l sid k ≤ 1) :
    dedupeCount (upsertRow l r) sid k = 1 := by
  induction l with
  | nil => simp [upsertRow, dedupeCount, hr, hk]
  | cons x xs ih =>
      rw [dedupeCount_cons] at hl
      by_cases hx : x.sessionId = r.sessionId ∧ x.dedupeKey = r.dedupeKey
      · have hxm : x.sessionId = sid ∧ x.dedupeKey = some k :=
          ⟨hx.1.trans hr, hx.2.trans hk⟩
        rw [hxm.1, hxm.2] at hl
        simp only [and_self, if_true, ite_true] at hl
        simp only [upsertRow]
        rw [if_pos hx, dedupeCount_cons, hr, hk]
        simp only [and_self, if_true, ite_true]
        omega
      · have hxm : ¬ (x.sessionId = sid ∧ x.dedupeKey = some k) := by
          intro hc
          exact hx ⟨hc.1.trans hr.symm, hc.2.trans hk.symm⟩
        rw [if_neg hxm] at hl
        simp only [upsertRow]
        rw [if_neg hx, dedupeCount_cons, if_neg hxm]
        rw [ih (by omega)]

/-- Claim C2.  `writeEvent` with a non-null dedupe key is idempotent, and
for every store holding at most one `(sessionId, dedupeKey)` row, two
`writeEvent` calls carrying the same `(sessionId, dedupeKey)` leave
exactly one persisted row with that key. -/
theorem writeEvent_dedupe_idempotent :
    (∀ (store : List EvtRow) (r : EvtRow) (k : String),
      r.dedupeKey = some k →
      writeEvent (writeEvent store r) r = writeEvent store r) ∧
    (∀ (store : List EvtRow) (r1 r2 : EvtRow) (sid k : String),
      r1.sessionId = sid → r1.dedupeKey = some k →
      r2.sessionId = sid → r2.dedupeKey = some k →
      dedupeCount store sid k ≤ 1 →
      dedupeCount (writeEvent (writeEvent store r1) r2) sid k = 1) := by
  constructor
  · intro store r k hk
    simp only [writeEvent, hk]
    exact upsertRow_idem store r
  · intro store r1 r2 sid k h1s h1k h2s h2k hle
    simp only [writeEvent, h1k, h2k]
    exact dedupeCount_upsertRow _ r2 sid k h2s h2k
      (le_of_eq (dedupeCount_upsertRow store r1 sid k h1s h1k hle))

/-- Witness for `writeEvent_dedupe_idempotent`: concrete rows with the
same `(sessionId, dedupeKey)` written twice into an empty store. -/
theorem writeEvent_dedupe_idempotent_witness :
    (writeEvent (writeEvent [] ⟨"s1", "u1", "progress", "p", some "done"⟩)
        ⟨"s1", "u1", "progress", "p", some "done"⟩
      = writeEvent [] ⟨"s1", "u1", "progress", "p", some "done"⟩) ∧
    dedupeCount
      (writeEvent (writeEvent [] ⟨"s1", "u1", "progress", "p1", some "done"⟩)
        ⟨"s1", "u1", "done", "p2", some "done"⟩) "s1" "done" = 1 :=
  ⟨writeEvent_dedupe_idempotent.1 [] _ "done" rfl,
   writeEvent_dedupe_idempotent.2 [] _ _ "s1" "done" rfl rfl rfl rfl
     (by decide)⟩

/-! ## Sorting lemmas -/

/-- Helper: inserting permutes. -/
theorem insByKey_perm {α : Type} (key : α → Int) (a : α) (l : List α) :
    List.Perm (insByKey key a l) (a :: l) := by
  induction l with
  | nil => simp [insByKey]
  | cons b bs ih =>
      simp only [insByKey]
      split
      · exact List.Perm.refl _
      · exact ((ih.cons b).trans (List.Perm.swap a b bs))

/-- Helper: stable sort permutes. -/
theorem sortByKey_perm {α : Type} (key : α → Int) (l : List α) :
    List.Perm (sortByKey key l) l := by
  have main : ∀ (l acc : List α),
      List.Perm (List.foldl (fun acc a => insByKey key a acc) acc l)
        (acc ++ l) := by
    intro l
    induction l with
    | nil => simp
    | cons a rest ih =>
        intro acc
        have h1 := ih (insByKey key a acc)
        have h2 : List.Perm (insByKey key a acc ++ rest) (acc ++ a :: rest) := by
          have := (insByKey_perm key a acc).append_right rest
          exact this.trans List.perm_middle.symm
        simpa using h1.trans h2
  simpa [sortByKey] using main l []

/-- Helper: membership in an insertion. -/
theorem mem_insByKey {α : Type} (key : α → Int) (a x : α) (l : List α) :
    x ∈ insByKey key a l ↔ x = a ∨ x ∈ l := by
  rw [(insByKey_perm key a l).mem_iff]
  simp

/-- Helper: insertion preserves sortedness by the key. -/
theorem insByKey_pairwise {α : Type} (key : α → Int) (a : α) (l : List α)
    (h : l.Pairwise (fun x y => key x ≤ key y)) :
    (insByKey key a l).Pairwise (fun x y => key x ≤ key y) := by
  induction l with
  | nil => simp [insByKey]
  | cons b bs ih =>
      rcases List.pairwise_cons.mp h with ⟨hb, hbs⟩
      simp only [insByKey]
      split
      next hab =>
        refine List.pairwise_cons.mpr ⟨?_, h⟩
        intro y hy
        rcases List.mem_cons.mp hy with rfl | hy2
        · exact le_of_lt hab
        · exact le_trans (le_of_lt hab) (hb y hy2)
      next hab =>
        refine List.pairwise_cons.mpr ⟨?_, ih hbs⟩
        intro y hy
        rcases (mem_insByKey key a y bs).mp hy with rfl | hy2
        · exact le_of_not_lt hab
        · exact hb y hy2

/-- Helper: the stable sort is sorted by the key. -/
theorem sortByKey_pairwise {α : Type} (key : α → Int) (l : List α) :
    (sortByKey key l).Pairwise (fun x y => key x ≤ key y) := by
  have main : ∀ (l acc : List α),
      acc.Pairwise (fun x y => key x ≤ key y) →
      (List.foldl (fun acc a => insByKey key a acc) acc l).Pairwise
        (fun x y => key x ≤ key y) := by
    intro l
    induction l with
    | nil => intro acc h; simpa using h
    | cons a rest ih =>
        intro acc h
        exact ih _ (insByKey_pairwise key a acc h)
  exact main l [] (by simp)

/-! ## SSE stream theorems -/

/-- Helper: a polled batch only contains store rows beyond the cursor. -/
theorem pollEvents_mem (store : List LogEvt) (c : Nat) (e : LogEvt)
    (he : e ∈ pollEvents store c) : e ∈ store ∧ c < e.id := by
  have h1 : e ∈ sortByKey (fun e : LogEvt => (e.id : Int))
      (store.filter (fun e => decide (c < e.id))) :=
    (List.take_subset _ _) he
  have h2 := (sortByKey_perm (fun e : LogEvt => (e.id : Int)) _).mem_iff.mp h1
  have h3 := List.mem_filter.mp h2
  exact ⟨h3.1, by simpa using h3.2⟩

/-- Helper: when store ids are pairwise distinct, each polled batch is
strictly increasing in id. -/
theorem pollEvents_pairwise (store : List LogEvt) (c : Nat)
    (hstore : (store.map LogEvt.id).Pairwise (· ≠ ·)) :
    (pollEvents store c).Pairwise (fun a b => a.id < b.id) := by
  set f := (store.filter (fun e => decide (c < e.id))) with hf
  have hfil : (f.map LogEvt.id).Pairwise (· ≠ ·) := by
    rw [List.pairwise_map] at hstore ⊢
    exact hstore.sublist (List.filter_sublist store)
  have hsorted := sortByKey_pairwise (fun e : LogEvt => (e.id : Int)) f
  have hneq : (sortByKey (fun e : LogEvt => (e.id : Int)) f).Pairwise
      (fun a b => a.id ≠ b.id) := by
    rw [List.pairwise_map] at hfil
    exact ((sortByKey_perm (fun e : LogEvt => (e.id : Int)) f).pairwise_iff
      (fun h => h.symm)).mpr hfil
  have hlt : (sortByKey (fun e : LogEvt => (e.id : Int)) f).Pairwise
      (fun a b => a.id < b.id) := by
    refine (hsorted.and hneq).imp ?_
    intro a b hab
    have h1 : a.id ≤ b.id := by exact_mod_cast hab.1
    exact lt_of_le_of_ne h1 hab.2
  exact hlt.sublist (List.take_sublist _ _)

/-- Helper: the advanced cursor dominates the old cursor and every
forwarded id. -/
theorem advanceCursor_le (batch : List LogEvt) (c : Nat) :
    c ≤ advanceCursor c batch ∧
    ∀ e ∈ batch, e.id ≤ advanceCursor c batch := by
  induction batch generalizing c with
  | nil => simp [advanceCursor]
  | cons x xs ih =>
      have h := ih (max c x.id)
      simp only [advanceCursor, List.foldl_cons] at h ⊢
      refine ⟨le_trans (le_max_left _ _) h.1, ?_⟩
      intro e he
      rcases List.mem_cons.mp he with rfl | he2
      · exact le_trans (le_max_right _ _) h.1
      · exact h.2 e he2

/-- Helper: the loop forwards ids strictly beyond the running cursor, in
strictly increasing order. -/
theorem streamRunAux_forwarded (store : List LogEvt) (canceled : Nat → Bool)
    (hstore : (store.map LogEvt.id).Pairwise (· ≠ ·)) :
    ∀ (fuel i cursor : Nat),
      (∀ e ∈ (streamRunAux store canceled fuel i cursor).forwarded,
        cursor < e.id) ∧
      (streamRunAux store canceled fuel i cursor).forwarded.Pairwise
        (fun a b => a.id < b.id) := by
  intro fuel
  induction fuel with
  | zero => intro i cursor; simp [streamRunAux, StreamRun.forwarded]
  | succ n ih =>
      intro i cursor
      by_cases hc : canceled i
      · simp [streamRunAux, hc, StreamRun.forwarded]
      · have hrec := ih (i + 1) (advanceCursor cursor (pollEvents store cursor))
        have hcur := advanceCursor_le (pollEvents store cursor) cursor
        have hfwd : (streamRunAux store canceled (n + 1) i cursor).forwarded
            = pollEvents store cursor ++
              (streamRunAux store canceled n (i + 1)
                (advanceCursor cursor (pollEvents store cursor))).forwarded := by
          simp [streamRunAux, hc, StreamRun.forwarded]
        rw [hfwd]
        constructor
        · intro e he
          rcases List.mem_append.mp he with h1 | h2
          · exact (pollEvents_mem store cursor e h1).2
          · exact lt_of_le_of_lt hcur.1 (hrec.1 e h2)
        · rw [List.pairwise_append]
          refine ⟨pollEvents_pairwise store cursor hstore, hrec.2, ?_⟩
          intro a ha b hb
          exact lt_of_le_of_lt (hcur.2 a ha) (hrec.1 b hb)

/-- Helper: the number of polls depends only on the cancel flags and the
fuel — never on the store contents or the cursor. -/
theorem streamRunAux_polls (canceled : Nat → Bool) :
    ∀ (fuel i : Nat) (store store2 : List LogEvt) (c c2 : Nat),
      (streamRunAux store canceled fuel i c).polls
        = (streamRunAux store2 canceled fuel i c2).polls := by
  intro fuel
  induction fuel with
  | zero => intro i store store2 c c2; rfl
  | succ n ih =>
      intro i store store2 c c2
      by_cases hc : canceled i
      · simp [streamRunAux, hc]
      · simp only [streamRunAux, hc, Bool.false_eq_true, if_false]
        exact congrArg (· + 1) (ih (i + 1) store store2 _ _)

/-- Claim C4, counterexample.  The polling loop of `streamEvents` does
not stop after forwarding a terminal event: with a store holding a
single `done` event and no client cancellation, the first poll forwards
`done` yet the loop still executes all remaining observed polls (4 in
total, not at most 2). -/
theorem sse_stops_after_done_counterexample :
    firstTerminalPoll
        (streamEventsRun [⟨1, "done", "p"⟩] (fun _ => false) 4 0).batches
      = some 0 ∧
    (streamEventsRun [⟨1, "done", "p"⟩] (fun _ => false) 4 0).polls = 4 ∧
    ¬ ((streamEventsRun [⟨1, "done", "p"⟩] (fun _ => false) 4 0).polls
        ≤ 0 + 2) := by
  decide

/-- Claim C4, amended.  The SSE polling loop forwards events in strictly
increasing id order (given the table's unique ids), but it never stops
because of a `done`/`error` event: the number of polls executed is
entirely determined by the cancel/abort flags and the observation
window, independent of the store contents and of the starting cursor. -/
theorem sse_stream_order_no_terminal_stop :
    (∀ (store : List LogEvt) (canceled : Nat → Bool) (fuel afterId : Nat),
      (store.map LogEvt.id).Pairwise (· ≠ ·) →
      ((streamEventsRun store canceled fuel afterId).forwarded.map
        LogEvt.id).Chain' (· < ·)) ∧
    (∀ (store store2 : List LogEvt) (canceled : Nat → Bool)
        (fuel afterId afterId2 : Nat),
      (streamEventsRun store canceled fuel afterId).polls
        = (streamEventsRun store2 canceled fuel afterId2).polls) := by
  constructor
  · intro store canceled fuel afterId hstore
    have h := (streamRunAux_forwarded store canceled hstore fuel 0 afterId).2
    exact (List.pairwise_map.mpr h).chain'
  · intro store store2 canceled fuel afterId afterId2
    exact streamRunAux_polls canceled fuel 0 store store2 afterId afterId2

/-- Witness for `sse_stream_order_no_terminal_stop`: a concrete
two-event store with distinct ids. -/
theorem sse_stream_order_no_terminal_stop_witness :
    ((streamEventsRun [⟨1, "progress", "a"⟩, ⟨2, "done", "b"⟩]
        (fun _ => false) 3 0).forwarded.map LogEvt.id).Chain' (· < ·) ∧
    (streamEventsRun [⟨1, "progress", "a"⟩, ⟨2, "done", "b"⟩]
        (fun _ => false) 3 0).polls
      = (streamEventsRun [] (fun _ => false) 3 7).polls :=
  ⟨sse_stream_order_no_terminal_stop.1
      [⟨1, "progress", "a"⟩, ⟨2, "done", "b"⟩] (fun _ => false) 3 0
      (by decide),
   sse_stream_order_no_terminal_stop.2
      [⟨1, "progress", "a"⟩, ⟨2, "done", "b"⟩] [] (fun _ => false) 3 0 7⟩

/-! ## Header bulk classification theorem -/

/-- Claim C5.  The code diverges from the documented rule: a message
carrying only a `List-Unsubscribe` header is classified as bulk by
`headerIsBulk` (the `hasList = !!(listId || listUnsub)` test), while the
spec rule (`specBulkHeaderRule`, which requires List-Id) says it is not;
in general the code equals the spec rule weakened by
"or List-Unsubscribe non-empty". -/
theorem headerIsBulk_listUnsubscribe_bug :
    headerIsBulk [("List-Unsubscribe", "<mailto:unsub@example.com>")]
      = true ∧
    specBulkHeaderRule [("List-Unsubscribe", "<mailto:unsub@example.com>")]
      = false ∧
    ∀ headers, headerIsBulk headers
      = (specBulkHeaderRule headers
          || !(jsToLower (headerGet headers "list-unsubscribe") == "")) := by
  refine ⟨by decide, by decide, ?_⟩
  intro headers
  simp only [headerIsBulk, specBulkHeaderRule]
  cases strIncludes (jsToLower (headerGet headers "precedence")) "bulk" <;>
  cases strIncludes (jsToLower (headerGet headers "precedence")) "list" <;>
  cases strIncludes (jsToLower (headerGet headers "precedence")) "junk" <;>
  cases strIncludes (jsToLower (headerGet headers "auto-submitted"))
    "auto-generated" <;>
  cases strIncludes (jsToLower (headerGet headers "auto-submitted"))
    "auto-replied" <;>
  cases jsToLower (headerGet headers "list-id") == "" <;>
  cases jsToLower (headerGet headers "list-unsubscribe") == "" <;>
  rfl

/-! ## Gmail retry theorems -/

/-- Helper: full behaviour of the retry loop, by induction on the
remaining retry budget: at most `remaining + 1` fetches; every attempt
that was followed by another one had a non-OK retryable status; no fetch
happens once the deadline flag is up; and the j-th backoff delay is
`250 * (attempt + 1) + jitter` — linear, not exponential. -/
theorem fetchRetryGo_spec (statuses : Nat → Nat) (stop : Nat → Bool)
    (jit : Nat → Nat) :
    ∀ (remaining idx : Nat),
      (fetchRetryGo statuses stop jit idx remaining).fetches
        ≤ remaining + 1 ∧
      (∀ j, j + 1 < (fetchRetryGo statuses stop jit idx remaining).fetches →
        resOk (statuses (idx + j)) = false ∧
        retryableStatus (statuses (idx + j)) = true) ∧
      (∀ j, j < (fetchRetryGo statuses stop jit idx remaining).fetches →
        stop (idx + j) = false) ∧
      (fetchRetryGo statuses stop jit idx remaining).delays.length
        ≤ remaining ∧
      (∀ j, ∀ h : j <
          (fetchRetryGo statuses stop jit idx remaining).delays.length,
        (fetchRetryGo statuses stop jit idx remaining).delays.get ⟨j, h⟩
          = 250 * (idx + j + 1) + jit (idx + j + 1)) := by
  intro remaining
  induction remaining with
  | zero =>
      intro idx
      by_cases hs : stop idx
      · simp [fetchRetryGo, hs]
      · have heq : fetchRetryGo statuses stop jit idx 0
            = ⟨.ok (statuses idx), 1, []⟩ := by
          simp [fetchRetryGo, hs]
        rw [heq]
        refine ⟨by simp, ?_, ?_, by simp, by simp⟩
        · intro j hj
          simp at hj
        · intro j hj
          simp at hj
          subst hj
          simpa using (by simpa using hs : stop idx = false)
  | succ r ih =>
      intro idx
      by_cases hs : stop idx
      · simp [fetchRetryGo, hs]
      · by_cases hok : resOk (statuses idx)
        · have heq : fetchRetryGo statuses stop jit idx (r + 1)
              = ⟨.ok (statuses idx), 1, []⟩ := by
            simp [fetchRetryGo, hs, hok]
          rw [heq]
          refine ⟨by simp, ?_, ?_, by simp, by simp⟩
          · intro j hj
            simp at hj
          · intro j hj
            simp at hj
            subst hj
            simpa using (by simpa using hs : stop idx = false)
        · by_cases hretry : retryableStatus (statuses idx)
          · have hrec := ih (idx + 1)
            have heq : fetchRetryGo statuses stop jit idx (r + 1)
                = ⟨(fetchRetryGo statuses stop jit (idx + 1) r).result,
                   (fetchRetryGo statuses stop jit (idx + 1) r).fetches + 1,
                   (250 * (idx + 1) + jit (idx + 1)) ::
                     (fetchRetryGo statuses stop jit (idx + 1) r).delays⟩ := by
              simp [fetchRetryGo, hs, hok, hretry]
            rw [heq]
            refine ⟨?_, ?_, ?_, ?_, ?_⟩
            · show (fetchRetryGo statuses stop jit (idx + 1) r).fetches + 1
                ≤ r + 1 + 1
              have := hrec.1
              omega
            · intro j hj
              cases j with
              | zero =>
                  exact ⟨by simpa using hok, hretry⟩
              | succ j2 =>
                  have hj2 : j2 + 1 <
                      (fetchRetryGo statuses stop jit (idx + 1) r).fetches := by
                    have : j2 + 1 + 1 <
                        (fetchRetryGo statuses stop jit (idx + 1) r).fetches
                          + 1 := hj
                    omega
                  have h2 := hrec.2.1 j2 hj2
                  have harith : idx + 1 + j2 = idx + (j2 + 1) := by omega
                  rw [harith] at h2
                  exact h2
            · intro j hj
              cases j with
              | zero => simpa using (by simpa using hs : stop idx = false)
              | succ j2 =>
                  have hj2 : j2 <
                      (fetchRetryGo statuses stop jit (idx + 1) r).fetches := by
                    have : j2 + 1 <
                        (fetchRetryGo statuses stop jit (idx + 1) r).fetches
                          + 1 := hj
                    omega
                  have h2 := hrec.2.2.1 j2 hj2
                  have harith : idx + 1 + j2 = idx + (j2 + 1) := by omega
                  rw [harith] at h2
                  exact h2
            · show ((250 * (idx + 1) + jit (idx + 1)) ::
                  (fetchRetryGo statuses stop jit (idx + 1) r).delays).length
                ≤ r + 1
              simp only [List.length_cons]
              have := hrec.2.2.2.1
              omega
            · intro j hj
              cases j with
              | zero => simp
              | succ j2 =>
                  have hj2 : j2 <
                      (fetchRetryGo statuses stop jit (idx + 1) r).delays.length := by
                    simpa using hj
                  have h2 := hrec.2.2.2.2 j2 hj2
                  simp only [List.get_cons_succ]
                  rw [h2]
                  congr 2 <;> omega
          · have heq : fetchRetryGo statuses stop jit idx (r + 1)
                = ⟨.ok (statuses idx), 1, []⟩ := by
              simp [fetchRetryGo, hs, hok, hretry]
            rw [heq]
            refine ⟨by simp, ?_, ?_, by simp, by simp⟩
            · intro j hj
              simp at hj
            · intro j hj
              simp at hj
              subst hj
              simpa using (by simpa using hs : stop idx = false)

/-- Claim C8, counterexample.  A 403 response is returned to the caller
without any retry (one single fetch), while 429 — under the same
conditions, far from the deadline — is retried up to 3 attempts: 403 is
not in `fetchRetry`'s retryable set. -/
theorem fetchRetry_403_not_retried :
    (fetchRetry (fun _ => 403) (fun _ => false) (fun _ => 0) 3).fetches
      = 1 ∧
    (fetchRetry (fun _ => 429) (fun _ => false) (fun _ => 0) 3).fetches
      = 3 ∧
    retryableStatus 403 = false := by
  refine ⟨rfl, rfl, rfl⟩

/-- Claim C8, amended.  With the default 3 tries, `fetchRetry` performs
at most 3 fetches; a retry happens only after a non-OK response with
status in {429, 500, 502, 503, 504} (403 is returned without retry); no
fetch is issued once the chunk-deadline flag `shouldStop` is up (it is
checked before every attempt); and the backoff before the (j+1)-st
attempt is `250·(j+1) + jitter` — linearly increasing plus jitter. -/
theorem fetchRetry_retry_policy :
    ∀ (statuses : Nat → Nat) (stop : Nat → Bool) (jit : Nat → Nat),
      ((fetchRetry statuses stop jit 3).fetches ≤ 3) ∧
      (∀ j, j + 1 < (fetchRetry statuses stop jit 3).fetches →
        resOk (statuses j) = false ∧
        retryableStatus (statuses j) = true) ∧
      (∀ j, j < (fetchRetry statuses stop jit 3).fetches →
        stop j = false) ∧
      ((fetchRetry statuses stop jit 3).delays.length ≤ 2) ∧
      (∀ j, ∀ h : j < (fetchRetry statuses stop jit 3).delays.length,
        (fetchRetry statuses stop jit 3).delays.get ⟨j, h⟩
          = 250 * (j + 1) + jit (j + 1)) ∧
      retryableStatus 403 = false := by
  intro statuses stop jit
  have h := fetchRetryGo_spec statuses stop jit 2 0
  simp only [Nat.zero_add] at h
  refine ⟨h.1, ?_, ?_, h.2.2.2.1, ?_, rfl⟩
  · intro j hj
    simpa using h.2.1 j hj
  · intro j hj
    simpa using h.2.2.1 j hj
  · intro j hj
    have := h.2.2.2.2 j hj
    simpa using this

/-- Witness for `fetchRetry_retry_policy`: constant-429 responses, no
deadline, zero jitter — three fetches, the first of which is retryable,
with backoff 250 then 500. -/
theorem fetchRetry_retry_policy_witness :
    (retryableStatus ((fun _ => 429) 0) = true) ∧
    ((fetchRetry (fun _ => 429) (fun _ => false) (fun _ => 0) 3).fetches
      ≤ 3) := by
  refine ⟨?_, (fetchRetry_retry_policy (fun _ => 429) (fun _ => false)
    (fun _ => 0)).1⟩
  exact ((fetchRetry_retry_policy (fun _ => 429) (fun _ => false)
    (fun _ => 0)).2.1 0 (by decide)).2

/-! ## Next-renewal extraction theorems -/

/-- Helper: the strict ISO day group implies the relaxed day shape. -/
theorem isoDayOk_relaxed (d1 d2 : Char) (h : isoDayOk d1 d2 = true) :
    (d1 == '0' || d1 == '1' || d1 == '2' || d1 == '3') = true ∧
    d2.isDigit = true := by
  simp only [isoDayOk, Bool.or_eq_true, Bool.and_eq_true, beq_iff_eq]
    at h ⊢
  constructor
  · tauto
  · rcases h with (⟨_, h2⟩ | ⟨_, h2⟩) | ⟨_, h2⟩
    · exact h2
    · exact h2
    · rcases h2 with h2 | h2 <;> subst h2 <;> decide

/-- Helper: a successful ISO match is ISO-shaped. -/
theorem isoMatchAt_shaped (prev : Option Char) (l : List Char)
    (m : List Char) (h : isoMatchAt prev l = some m) :
    isoShaped m.asString = true := by
  match l, h with
  | c1 :: c2 :: y3 :: y4 :: h1 :: m1 :: m2 :: h2 :: d1 :: d2 :: rest, h => ?_
  simp only [isoMatchAt] at h
  split at h
  case isTrue hcond =>
    simp only [Bool.and_eq_true, beq_iff_eq] at hcond
    obtain ⟨⟨⟨⟨⟨⟨⟨⟨⟨_, hc1⟩, hc2⟩, hy3⟩, hy4⟩, hh1⟩, hmon⟩, hh2⟩, hday⟩,
      _⟩ := hcond
    cases h
    subst hc1; subst hc2; subst hh1; subst hh2
    have hrel := isoDayOk_relaxed d1 d2 hday
    simp only [isoShaped, List.asString]
    simp only [show String.toList ⟨['2', '0', y3, y4, '-', m1, m2, '-',
      d1, d2]⟩ = ['2', '0', y3, y4, '-', m1, m2, '-', d1, d2] from rfl]
    simp [hy3, hy4, hmon, hrel.1, hrel.2]
  case isFalse => exact absurd h (by simp)

/-- Helper: every ISO find is ISO-shaped. -/
theorem findIso_shaped (l : List Char) :
    ∀ (prev : Option Char) (m : List Char), findIso prev l = some m →
      isoShaped m.asString = true := by
  induction l with
  | nil => intro prev m h; simp [findIso] at h
  | cons c rest ih =>
      intro prev m h
      simp only [findIso] at h
      cases hm : isoMatchAt prev (c :: rest) with
      | some m2 =>
          rw [hm] at h
          cases h
          exact isoMatchAt_shaped prev (c :: rest) m hm
      | none =>
          rw [hm] at h
          exact ih (some c) m h

/-- Helper: every month-table entry is a two-character ISO month. -/
theorem monthTable_shape :
    monthTable.all (fun e =>
      match e.2 with
      | [x, y] => isoMonthOk x y
      | _ => false) = true := by decide

/-- Helper: the padded day always has a 0..3 first digit and a digit
second character. -/
theorem dayCommaAt_shape (l : List Char) (day rest : List Char)
    (h : dayCommaAt l = some (day, rest)) :
    ∃ p1 p2, padDay2 day = [p1, p2] ∧
      (p1 == '0' || p1 == '1' || p1 == '2' || p1 == '3') = true ∧
      p2.isDigit = true := by
  match l, h with
  | c1 :: c2 :: r, h => ?_
  by_cases h1 : ((c1 == '0' || c1 == '1' || c1 == '2' || c1 == '3') &&
      c2.isDigit) = true
  · simp only [dayCommaAt, h1, if_true, ite_true] at h
    cases hr : r with
    | nil => rw [hr] at h; exact absurd h (by simp)
    | cons q rest2 =>
        rw [hr] at h
        dsimp only at h
        by_cases hq : (q == ',') = true
        · rw [if_pos hq] at h
          cases h
          simp only [Bool.and_eq_true] at h1
          exact ⟨c1, c2, by simp [padDay2], h1.1, h1.2⟩
        · rw [if_neg hq] at h
          exact absurd h (by simp)
  · simp only [dayCommaAt, h1, if_false, ite_false] at h
    by_cases h2 : (c1.isDigit && (c2 == ',')) = true
    · rw [if_pos h2] at h
      cases h
      simp only [Bool.and_eq_true] at h2
      exact ⟨'0', c1, by simp [padDay2], by decide, h2.1⟩
    · rw [if_neg h2] at h
      exact absurd h (by simp)

/-- Helper: a matched month abbreviation yields a month-table value. -/
theorem monthNameAt_mm (l : List Char) (mm rest1 : List Char)
    (h : monthNameAt l = some (mm, rest1)) :
    ∃ e ∈ monthTable, e.2 = mm := by
  match l, h with
  | a :: b :: c :: rest, h => ?_
  simp only [monthNameAt] at h
  cases hfind : monthTable.find? (fun e =>
      e.1 == [a.toLower, b.toLower, c.toLower]) with
  | none => rw [hfind] at h; exact absurd h (by simp)
  | some e =>
      rw [hfind] at h
      simp only [Option.some.injEq, Prod.mk.injEq] at h
      exact ⟨e, List.mem_of_find?_eq_some hfind, h.1⟩

/-- Helper: every month-table value is a valid two-character month. -/
theorem monthTable_mm_shape (mm : List Char)
    (h : ∃ e ∈ monthTable, e.2 = mm) :
    ∃ x y, mm = [x, y] ∧ isoMonthOk x y = true := by
  obtain ⟨e, hemem, hmm⟩ := h
  have hall := List.all_eq_true.mp monthTable_shape e hemem
  subst hmm
  cases he2 : e.2 with
  | nil => rw [he2] at hall; simp at hall
  | cons x t1 =>
      cases t1 with
      | nil => rw [he2] at hall; simp at hall
      | cons y t2 =>
          cases t2 with
          | nil =>
              rw [he2] at hall
              exact ⟨x, y, rfl, by simpa using hall⟩
          | cons z t3 => rw [he2] at hall; simp at hall

/-- Helper: a successful month-regex match is ISO-shaped. -/
theorem monthMatchAt_shaped (prev : Option Char) (l : List Char)
    (m : String) (h : monthMatchAt prev l = some m) :
    isoShaped m = true := by
  simp only [monthMatchAt] at h
  split at h
  case isFalse => exact absurd h (by simp)
  case isTrue =>
    cases hname : monthNameAt l with
    | none => rw [hname] at h; exact absurd h (by simp)
    | some me =>
        obtain ⟨mm, rest1⟩ := me
        rw [hname] at h
        simp only at h
        cases hr2 : rest1.dropWhile (fun c => c.isAlpha) with
        | nil => rw [hr2] at h; exact absurd h (by simp)
        | cons c rest3 =>
            rw [hr2] at h
            simp only at h
            split at h
            case isFalse => exact absurd h (by simp)
            case isTrue =>
              cases hday : dayCommaAt (rest3.dropWhile isSpaceChar) with
              | none => rw [hday] at h; exact absurd h (by simp)
              | some de =>
                  obtain ⟨day, rest5⟩ := de
                  rw [hday] at h
                  simp only at h
                  cases hr6 : rest5.dropWhile isSpaceChar with
                  | nil => rw [hr6] at h; exact absurd h (by simp)
                  | cons g1 r7 =>
                  cases r7 with
                  | nil => rw [hr6] at h; exact absurd h (by simp)
                  | cons g2 r8 =>
                  cases r8 with
                  | nil => rw [hr6] at h; exact absurd h (by simp)
                  | cons g3 r9 =>
                  cases r9 with
                  | nil => rw [hr6] at h; exact absurd h (by simp)
                  | cons g4 rest7 =>
                  rw [hr6] at h
                  simp only at h
                  split at h
                  case isFalse => exact absurd h (by simp)
                  case isTrue hg =>
                    cases h
                    simp only [Bool.and_eq_true, beq_iff_eq] at hg
                    obtain ⟨⟨⟨⟨hg1, hg2⟩, hg3⟩, hg4⟩, _⟩ := hg
                    subst hg1; subst hg2
                    obtain ⟨p1, p2, hpad, hp1, hp2⟩ :=
                      dayCommaAt_shape _ _ _ hday
                    obtain ⟨x, y, hxy, hmOk⟩ :=
                      monthTable_mm_shape mm (monthNameAt_mm l mm rest1 hname)
                    subst hxy
                    rw [hpad]
                    simp only [isoShaped, List.asString]
                    have hlist : String.toList
                        ⟨['2', '0', g3, g4] ++ ['-'] ++ [x, y] ++ ['-'] ++
                          [p1, p2]⟩
                        = ['2', '0', g3, g4, '-', x, y, '-', p1, p2] := rfl
                    rw [hlist]
                    simp [hg3, hg4, hmOk, hp1, hp2]

/-- Helper: every month-regex find is ISO-shaped. -/
theorem findMonth_shaped (l : List Char) :
    ∀ (prev : Option Char) (m : String), findMonth prev l = some m →
      isoShaped m = true := by
  induction l with
  | nil => intro prev m h; simp [findMonth] at h
  | cons c rest ih =>
      intro prev m h
      simp only [findMonth] at h
      cases hm : monthMatchAt prev (c :: rest) with
      | some m2 =>
          rw [hm] at h
          cases h
          exact monthMatchAt_shaped prev (c :: rest) m hm
      | none =>
          rw [hm] at h
          exact ih (some c) m h

/-- Claim C7, counterexample.  `extractNextRenewal` consults no clock
and applies no recency window: evaluated on text whose date sits next to
the renewal keyword but far outside [now-1d, now+400d] (for now =
2026-10-11, day 20737: the window ends at day 21137 while 2099-12-31 is
day 47481), it still returns the date instead of null. -/
theorem extractNextRenewal_window_counterexample :
    extractNextRenewal "Your subscription renews on 2099-12-31" "" ""
      = some "2099-12-31" ∧
    isoToDays "2099-12-31" = some 47481 ∧
    isoToDays "2026-10-11" = some 20737 ∧
    (20737 : Int) + 400 < 47481 := by
  refine ⟨by decide, by decide, by decide, by decide⟩

/-- Claim C7, amended.  `extractNextRenewal` returns the first
word-bounded ISO `20YY-MM-DD` match of the concatenated
subject/text/html, else the first `Mon DD, YYYY` match converted to
ISO; it takes no clock input, so no [now-1d, now+400d] window (and no
keyword-proximity condition) is enforced; every returned value has the
ISO shape `20YY-MM-DD`. -/
theorem extractNextRenewal_shape :
    ∀ (subject text html d : String),
      extractNextRenewal subject text html = some d →
      isoShaped d = true := by
  intro subject text html d h
  simp only [extractNextRenewal] at h
  cases hIso : findIso none
      (subject ++ "\n" ++ text ++ "\n" ++ html).toList with
  | some m =>
      rw [hIso] at h
      cases h
      exact findIso_shaped _ none m hIso
  | none =>
      rw [hIso] at h
      exact findMonth_shaped _ none d h

/-- Witness for `extractNextRenewal_shape`: a concrete extraction whose
result is checked to be ISO-shaped. -/
theorem extractNextRenewal_shape_witness :
    isoShaped "2026-01-05" = true :=
  extractNextRenewal_shape "Renews on 2026-01-05" "" "" "2026-01-05"
    (by decide)

/-! ## Candidate confidence theorems -/

/-- Claim C6, counterexample.  For a resolver confidence of 80 on a
transactional message with an amount (no other signals), the code
computes min(60, 80) + 12 + 10 = 82, while the claim's formula computes
min(60, 80·0.6) + 12 + 10 = 70; both are above the floor, so the
candidate is emitted with confidence 82, not 70. -/
theorem buildConfidence_scale_counterexample :
    (buildConfidence ⟨⟨80, some "domain", false⟩, true, false, none,
        some 1549, none, none, false⟩).map Prod.fst = some 82 ∧
    specClaimConfidence ⟨⟨80, some "domain", false⟩, true, false, none,
        some 1549, none, none, false⟩ false = 70 ∧
    (82 : Int) ≠ 70 := by
  refine ⟨by decide, by decide, by decide⟩

/-- Helper: extracting from a guarded some. -/
theorem ite_none_some {α : Type} {C : Prop} [Decidable C] {x y : α}
    (h : (if C then none else some x) = some y) : x = y ∧ ¬ C := by
  split at h
  · exact absurd h (by simp)
  · next hc => exact ⟨by simpa using h, hc⟩

/-- Helper: the confidence component of one bonus step. -/
theorem applyBonus_fst (cond : Bool) (delta : Int) (msg : String)
    (s : Int × List String) :
    (applyBonus cond delta msg s).1 = s.1 + (if cond then delta else 0) := by
  obtain ⟨c, r⟩ := s
  simp only [applyBonus]
  split <;> simp

/-- Claim C6, amended.  For every message that the scoring tail turns
into a candidate, the confidence equals the closed-form additive value:
min(60, resolver confidence) (no ×0.6 scaling) + 12 if transactional
− 10 if bulkHeader − 15 if the sender domain is consumer + 10 if
platform extract + 10 if amount and transactional + 8 if nextRenewal
+ 4 if the cadence is accepted (cadence is kept only when a renewal date
or transactional language is present), clamped to [0, 100], then capped
at 55 when amount, renewal, cadence and trial are all absent; there is
no fallback-domain bonus and no resolver/keyword conflict penalty; the
result is at or above the floor (35 for trials, else 45). -/
theorem buildConfidence_formula :
    ∀ (sig : BuildSignals) (conf : Int) (rs : List String),
      buildConfidence sig = some (conf, rs) →
      conf = codeConfidenceFormula sig ∧
      (if sig.isTrial then (35 : Int) else 45) ≤ conf := by
  intro sig conf rs h
  simp only [buildConfidence] at h
  obtain ⟨hx, hge⟩ := ite_none_some h
  obtain ⟨h1, -⟩ := Prod.mk.injEq .. |>.mp hx
  subst h1
  refine ⟨?_, by simpa using not_lt.mp hge⟩
  simp only [codeConfidenceFormula, applyBonus_fst, clampInt]

/-- Witness for `buildConfidence_formula`: the counterexample signals,
for which the formula evaluates to 82. -/
theorem buildConfidence_formula_witness :
    (82 : Int) = codeConfidenceFormula ⟨⟨80, some "domain", false⟩, true,
      false, none, some 1549, none, none, false⟩ ∧
    (if (false : Bool) then (35 : Int) else 45) ≤ 82 :=
  buildConfidence_formula ⟨⟨80, some "domain", false⟩, true, false, none,
    some 1549, none, none, false⟩ 82
    ["Resolver: domain", "Transactional language",
     "Found amount near billing keywords"] (by decide)

/-! ## Aggregator theorems -/

/-- Helper: the aggregator's merge never keeps the `_evidence` payload
and never touches the key fields. -/
theorem processGroup_fields (g : AggGroup) :
    (processGroup g).merchant = g.best.merchant ∧
    (processGroup g).plan = g.best.plan ∧
    (processGroup g).amount = g.best.amount ∧
    (processGroup g).currency = g.best.currency ∧
    (processGroup g).evidenceDateMs = none := by
  simp only [processGroup]
  split_ifs <;> (cases minTruthyRenewal g.evidence <;> simp_all)

/-- Helper: merging preserves the grouping key. -/
theorem processGroup_key (g : AggGroup) :
    candidateKey (processGroup g) = candidateKey g.best := by
  have h := processGroup_fields g
  simp only [candidateKey, h.1, h.2.1, h.2.2.1, h.2.2.2.1]

/-- Helper: a fresh group receives exactly its candidate. -/
theorem updateGroup_fresh (c : Candidate)
    (h : evidenceDateTruthy c = false) :
    updateGroup ⟨c, [], []⟩ c = ⟨c, [], [c]⟩ := by
  simp [updateGroup, h]

/-- Helper: the best of a freshly created group is its candidate. -/
theorem updateGroup_fresh_best (c : Candidate) :
    (updateGroup ⟨c, [], []⟩ c).best = c := by
  simp [updateGroup]

/-- Helper: grouping a list of pairwise-distinct keys with no evidence
dates yields one singleton group per candidate, in order. -/
theorem buildGroups_clean (ys : List Candidate)
    (hev : ∀ c ∈ ys, evidenceDateTruthy c = false)
    (hkeys : (ys.map candidateKey).Pairwise (· ≠ ·)) :
    buildGroups ys
      = ys.map (fun c => (candidateKey c, ⟨c, [], [c]⟩)) := by
  have aux : ∀ (l : List Candidate) (acc : List (String × AggGroup)),
      (∀ c ∈ l, evidenceDateTruthy c = false) →
      (l.map candidateKey).Pairwise (· ≠ ·) →
      (∀ kv ∈ acc, ∀ c ∈ l, kv.1 ≠ candidateKey c) →
      l.foldl addToGroups acc
        = acc ++ l.map (fun c => (candidateKey c, ⟨c, [], [c]⟩)) := by
    intro l
    induction l with
    | nil => intro acc _ _ _; simp
    | cons c rest ih =>
        intro acc hev2 hkeys2 hacc
        have hnotin : acc.any
            (fun kv => kv.1 == candidateKey c) = false := by
          rw [List.any_eq_false]
          intro kv hkv
          simpa using hacc kv hkv c (by simp)
        have hstep : addToGroups acc c
            = acc ++ [(candidateKey c, ⟨c, [], [c]⟩)] := by
          simp only [addToGroups, hnotin, Bool.false_eq_true, if_false]
          rw [updateGroup_fresh c (hev2 c (by simp))]
        simp only [List.foldl_cons, hstep]
        have hcons : (∀ a ∈ rest.map candidateKey, candidateKey c ≠ a) ∧
            (rest.map candidateKey).Pairwise (· ≠ ·) := by
          have h2 := hkeys2
          rw [List.map_cons, List.pairwise_cons] at h2
          exact h2
        have hrec := ih (acc ++ [(candidateKey c, ⟨c, [], [c]⟩)])
          (fun x hx => hev2 x (by simp [hx])) hcons.2
          (by
            intro kv hkv x hx
            rcases List.mem_append.mp hkv with h1 | h2
            · exact hacc kv h1 x (by simp [hx])
            · have heq : kv = (candidateKey c, ⟨c, [], [c]⟩) := by
                simpa using h2
              subst heq
              exact hcons.1 (candidateKey x) (List.mem_map_of_mem _ hx))
        rw [hrec]
        simp
  have := aux ys [] hev hkeys (by simp)
  simpa [buildGroups] using this

/-- Helper: grouping keeps the stored keys pairwise distinct, and each
group's best candidate carries the group key. -/
theorem buildGroups_inv (raw : List Candidate) :
    ((buildGroups raw).map Prod.fst).Pairwise (· ≠ ·) ∧
    (∀ kv ∈ buildGroups raw, candidateKey kv.2.best = kv.1) := by
  have aux : ∀ (l : List Candidate) (acc : List (String × AggGroup)),
      (acc.map Prod.fst).Pairwise (· ≠ ·) →
      (∀ kv ∈ acc, candidateKey kv.2.best = kv.1) →
      ((l.foldl addToGroups acc).map Prod.fst).Pairwise (· ≠ ·) ∧
      (∀ kv ∈ l.foldl addToGroups acc, candidateKey kv.2.best = kv.1) := by
    intro l
    induction l with
    | nil => intro acc h1 h2; exact ⟨h1, h2⟩
    | cons c rest ih =>
        intro acc h1 h2
        simp only [List.foldl_cons]
        by_cases hin : acc.any (fun kv => kv.1 == candidateKey c) = true
        · have hstep : addToGroups acc c
              = acc.map (fun kv => if kv.1 == candidateKey c then
                  (kv.1, updateGroup kv.2 c) else kv) := by
            simp only [addToGroups, hin, if_true, ite_true]
          rw [hstep]
          refine ih _ ?_ ?_
          · have hfst : (acc.map (fun kv =>
                if kv.1 == candidateKey c then (kv.1, updateGroup kv.2 c)
                else kv)).map Prod.fst = acc.map Prod.fst := by
              rw [List.map_map]
              refine List.map_congr_left ?_
              intro kv _
              simp only [Function.comp]
              split <;> rfl
            rw [hfst]
            exact h1
          · intro kv hkv
            rcases List.mem_map.mp hkv with ⟨kv0, hkv0, hkveq⟩
            by_cases hk : kv0.1 == candidateKey c
            · rw [if_pos hk] at hkveq
              subst hkveq
              simp only [updateGroup]
              split
              · simpa using (eq_of_beq hk).symm
              · exact h2 kv0 hkv0
            · rw [if_neg hk] at hkveq
              subst hkveq
              exact h2 kv0 hkv0
        · have hstep : addToGroups acc c
              = acc ++ [(candidateKey c, updateGroup ⟨c, [], []⟩ c)] := by
            simp only [addToGroups]
            rw [if_neg (by simpa using hin)]
          rw [hstep]
          refine ih _ ?_ ?_
          · rw [List.map_append, List.pairwise_append]
            refine ⟨h1, by simp, ?_⟩
            intro x hx y hy
            have hx2 := List.mem_map.mp hx
            obtain ⟨kv, hkv, hkveq⟩ := hx2
            have hy2 : y = candidateKey c := by simpa using hy
            subst hy2
            subst hkveq
            have hfalse : acc.any
                (fun kv => kv.1 == candidateKey c) = false := by
              cases hb : acc.any (fun kv => kv.1 == candidateKey c)
              · rfl
              · exact absurd hb hin
            have := List.any_eq_false.mp hfalse kv hkv
            simpa using this
          · intro kv hkv
            rcases List.mem_append.mp hkv with hkv1 | hkv2
            · exact h2 kv hkv1
            · have heq : kv = (candidateKey c, updateGroup ⟨c, [], []⟩ c) := by
                simpa using hkv2
              subst heq
              simp [updateGroup_fresh_best]
  exact aux raw [] (by simp) (by simp)

/-- Helper: members of the aggregator's output carry no `_evidence` and
have pairwise-distinct keys. -/
theorem aggregateCandidates_members (raw : List Candidate) (cap : Nat) :
    (∀ c ∈ aggregateCandidates raw cap, c.evidenceDateMs = none) ∧
    ((aggregateCandidates raw cap).map candidateKey).Pairwise (· ≠ ·) := by
  have hout : ∀ c ∈ (buildGroups raw).map (fun kv => processGroup kv.2),
      c.evidenceDateMs = none := by
    intro c hc
    rcases List.mem_map.mp hc with ⟨kv, _, hkveq⟩
    subst hkveq
    exact (processGroup_fields kv.2).2.2.2.2
  have hperm := sortByKey_perm (fun c : Candidate => -c.confidence)
    ((buildGroups raw).map (fun kv => processGroup kv.2))
  constructor
  · intro c hc
    have hc2 : c ∈ sortByKey (fun c : Candidate => -c.confidence)
        ((buildGroups raw).map (fun kv => processGroup kv.2)) :=
      List.take_subset _ _ hc
    exact hout c (hperm.mem_iff.mp hc2)
  · have hkeys : (((buildGroups raw).map
        (fun kv => processGroup kv.2)).map candidateKey).Pairwise
          (· ≠ ·) := by
      rw [List.map_map]
      have hcongr : (buildGroups raw).map
          (candidateKey ∘ fun kv => processGroup kv.2)
          = (buildGroups raw).map Prod.fst := by
        refine List.map_congr_left ?_
        intro kv hkv
        have h1 := processGroup_key kv.2
        have h2 := (buildGroups_inv raw).2 kv hkv
        simpa [h1] using h2
      rw [hcongr]
      exact (buildGroups_inv raw).1
    have hpermmap := hperm.map candidateKey
    have hsorted := (hpermmap.pairwise_iff
      (fun h => h.symm)).mpr hkeys
    exact hsorted.sublist ((List.take_sublist _ _).map candidateKey)

/-- Helper: null is not truthy. -/
theorem jsTruthyOptStr_none : jsTruthyOptStr none = false := rfl

/-- Helper: merging a singleton group with no evidence date is exactly
`reprocessSingle`. -/
theorem processGroup_singleton (c : Candidate) :
    processGroup ⟨c, [], [c]⟩ = reprocessSingle c := by
  have hmin : jsTruthyOptStr c.nextRenewal = false →
      minTruthyRenewal [c] = none := by
    intro h
    cases hnr : c.nextRenewal with
    | none => simp [minTruthyRenewal, hnr]
    | some s =>
        rw [hnr] at h
        simp only [jsTruthyOptStr, Bool.not_eq_false] at h
        simp [minTruthyRenewal, hnr, h]
  cases hcad : jsTruthyOptStr c.cadence with
  | false =>
      cases hnrt : jsTruthyOptStr c.nextRenewal with
      | false =>
          simp [processGroup, reprocessSingle, inferCadenceFromDates,
            jsTruthyOptStr_none, hcad, hnrt, hmin hnrt]
      | true =>
          simp [processGroup, reprocessSingle, inferCadenceFromDates,
            jsTruthyOptStr_none, hcad, hnrt]
  | true =>
      cases hnrt : jsTruthyOptStr c.nextRenewal with
      | false =>
          simp [processGroup, reprocessSingle, inferCadenceFromDates,
            jsTruthyOptStr_none, hcad, hnrt, hmin hnrt]
      | true =>
          simp [processGroup, reprocessSingle, inferCadenceFromDates,
            jsTruthyOptStr_none, hcad, hnrt]

/-- Claim C9, counterexample.  The aggregator is not idempotent: a
single candidate with evidence but no cadence and no renewal gets the
single-evidence cap and its reason once on the first application and a
duplicate of the reason on the second. -/
theorem aggregateCandidates_not_idempotent :
    aggregateCandidates (aggregateCandidates
        [⟨some "Netflix", none, none, none, none, none, 80, [], none,
          some 1000⟩] 50) 50
      ≠ aggregateCandidates
        [⟨some "Netflix", none, none, none, none, none, 80, [], none,
          some 1000⟩] 50 := by
  decide

/-- Claim C9, amended.  A second application of the aggregator acts
element-wise on its own output: it equals re-sorting (by descending
confidence) and re-truncating the per-candidate `reprocessSingle`
update, which preserves merchant, plan, amount, currency, truthy
cadence and nextRenewal, resets `eventCount` to 1, and — for candidates
with neither cadence nor renewal — caps confidence at 70 and appends a
duplicate single-evidence reason; hence the aggregator is not
idempotent. -/
theorem aggregateCandidates_reapply (raw : List Candidate) (cap : Nat) :
    aggregateCandidates (aggregateCandidates raw cap) cap
      = (sortByKey (fun c => -c.confidence)
          ((aggregateCandidates raw cap).map reprocessSingle)).take cap := by
  have hmem := aggregateCandidates_members raw cap
  have hev : ∀ c ∈ aggregateCandidates raw cap,
      evidenceDateTruthy c = false := by
    intro c hc
    simp [evidenceDateTruthy, hmem.1 c hc]
  have hclean := buildGroups_clean (aggregateCandidates raw cap) hev hmem.2
  show (sortByKey (fun c => -c.confidence)
      ((buildGroups (aggregateCandidates raw cap)).map
        (fun kv => processGroup kv.2))).take cap = _
  rw [hclean, List.map_map]
  congr 1
  refine congrArg _ (List.map_congr_left ?_)
  intro c _
  exact processGroup_singleton c

theorem decimalDigitsAux_mem : ∀ fuel n c, c ∈ decimalDigitsAux fuel n →
    ∃ d, d < 10 ∧ c = Char.ofNat (48 + d)
  | 0, n, c, h => by simp [decimalDigitsAux] at h
  | fuel + 1, n, c, h => by
    rw [decimalDigitsAux] at h
    by_cases h10 : n < 10
    · rw [if_pos h10] at h
      simp at h
      exact ⟨n, h10, h⟩
    · rw [if_neg h10] at h
      rcases List.mem_append.mp h with h1 | h2
      · exact decimalDigitsAux_mem fuel (n / 10) c h1
      · simp at h2
        exact ⟨n % 10, Nat.mod_lt _ (by omega), h2⟩

theorem decimalDigits_mem (n : Nat) (c : Char) (h : c ∈ decimalDigits n) :
    ∃ d, d < 10 ∧ c = Char.ofNat (48 + d) :=
  decimalDigitsAux_mem (n + 1) n c h

theorem digitChar_toNat : ∀ d, d < 10 → (Char.ofNat (48 + d)).toNat = 48 + d := by decide

theorem digitChar_isDigit : ∀ d, d < 10 → (Char.ofNat (48 + d)).isDigit = true := by decide

theorem digitChar_dispatch : ∀ d, d < 10 →
    jsonWs (Char.ofNat (48 + d)) = false ∧
    (Char.ofNat (48 + d) == Char.ofNat 123) = false ∧
    (Char.ofNat (48 + d) == '[') = false ∧
    (Char.ofNat (48 + d) == Char.ofNat 34) = false ∧
    (Char.ofNat (48 + d) == 't') = false ∧
    (Char.ofNat (48 + d) == 'f') = false ∧
    (Char.ofNat (48 + d) == 'n') = false ∧
    (Char.ofNat (48 + d) == '-') = false := by decide

theorem decimalDigitsAux_val : ∀ fuel n, n < fuel →
    decDigitsVal (decimalDigitsAux fuel n) = n
  | 0, n, h => by omega
  | fuel + 1, n, h => by
    rw [decimalDigitsAux]
    by_cases h10 : n < 10
    · rw [if_pos h10]
      simp [decDigitsVal, digitChar_toNat n h10]
    · rw [if_neg h10]
      have hrec := decimalDigitsAux_val fuel (n / 10) (by omega)
      simp only [decDigitsVal] at hrec ⊢
      rw [List.foldl_append, hrec]
      simp [digitChar_toNat (n % 10) (by omega)]
      omega

theorem decimalDigits_val (n : Nat) : decDigitsVal (decimalDigits n) = n :=
  decimalDigitsAux_val (n + 1) n (by omega)

theorem decimalDigits_ne_nil (n : Nat) : decimalDigits n ≠ [] := by
  rw [decimalDigits, decimalDigitsAux]
  by_cases h10 : n < 10
  · rw [if_pos h10]; simp
  · rw [if_neg h10]; simp

theorem takeWhile_append_of_all {α : Type} (p : α → Bool) :
    ∀ (l1 l2 : List α), (∀ c ∈ l1, p c = true) →
    (l1 ++ l2).takeWhile p = l1 ++ l2.takeWhile p
  | [], l2, _ => rfl
  | c :: t, l2, h => by
    simp only [List.cons_append, List.takeWhile_cons, h c (by simp), if_true]
    rw [takeWhile_append_of_all p t l2 (fun x hx => h x (by simp [hx]))]

theorem dropWhile_append_of_all {α : Type} (p : α → Bool) :
    ∀ (l1 l2 : List α), (∀ c ∈ l1, p c = true) →
    (l1 ++ l2).dropWhile p = l2.dropWhile p
  | [], l2, _ => rfl
  | c :: t, l2, h => by
    simp only [List.cons_append, List.dropWhile_cons, h c (by simp), if_true]
    exact dropWhile_append_of_all p t l2 (fun x hx => h x (by simp [hx]))

theorem b64Value_alphabet : ∀ i, i < 64 → b64Value (b64Alphabet i) = some i := by decide

theorem b64_chunks_roundtrip : ∀ bytes : List Nat, (∀ b ∈ bytes, b < 256) →
    b64DecodeVals ((b64EncodeChunks bytes).filterMap b64Value) = bytes
  | [], _ => rfl
  | [a], h => by
    have ha : a < 256 := h a (by simp)
    rw [b64EncodeChunks]
    rw [List.filterMap_cons, b64Value_alphabet (a / 4) (by omega)]
    rw [List.filterMap_cons, b64Value_alphabet (a % 4 * 16) (by omega)]
    rw [List.filterMap_nil, b64DecodeVals]
    simp only [List.cons.injEq, and_true]
    omega
  | [a, b], h => by
    have ha : a < 256 := h a (by simp)
    have hb : b < 256 := h b (by simp)
    rw [b64EncodeChunks]
    rw [List.filterMap_cons, b64Value_alphabet (a / 4) (by omega)]
    rw [List.filterMap_cons, b64Value_alphabet (a % 4 * 16 + b / 16) (by omega)]
    rw [List.filterMap_cons, b64Value_alphabet (b % 16 * 4) (by omega)]
    rw [List.filterMap_nil, b64DecodeVals]
    simp only [List.cons.injEq, and_true]
    constructor
    · omega
    · omega
  | a :: b :: c :: rest, h => by
    have ha : a < 256 := h a (by simp)
    have hb : b < 256 := h b (by simp)
    have hc : c < 256 := h c (by simp)
    have hrest := b64_chunks_roundtrip rest (fun x hx => h x (by simp [hx]))
    rw [b64EncodeChunks]
    rw [List.filterMap_cons, b64Value_alphabet (a / 4) (by omega)]
    rw [List.filterMap_cons, b64Value_alphabet (a % 4 * 16 + b / 16) (by omega)]
    rw [List.filterMap_cons, b64Value_alphabet (b % 16 * 4 + c / 64) (by omega)]
    rw [List.filterMap_cons, b64Value_alphabet (c % 64) (by omega)]
    rw [b64DecodeVals, hrest]
    simp only [List.cons.injEq, and_true]
    refine ⟨by omega, by omega, by omega⟩

theorem base64url_roundtrip (bytes : List Nat) (h : ∀ b ∈ bytes, b < 256) :
    base64urlDecode (base64urlEncode bytes) = bytes := by
  show b64DecodeVals (((b64EncodeChunks bytes).asString).toList.filterMap b64Value) = bytes
  have : ((b64EncodeChunks bytes).asString).toList = b64EncodeChunks bytes := rfl
  rw [this]
  exact b64_chunks_roundtrip bytes h

theorem bytesToStringLenient_strBytes (s : String)
    (h : ∀ c ∈ s.toList, c.toNat < 128) :
    bytesToStringLenient (strBytes s) = s := by
  show ((s.toList.map Char.toNat).map
    (fun b => if b < 128 then Char.ofNat b else Char.ofNat 0xFFFD)).asString = s
  rw [List.map_map]
  have hmap : s.toList.map
      ((fun b => if b < 128 then Char.ofNat b else Char.ofNat 0xFFFD) ∘ Char.toNat) =
      s.toList.map id := by
    apply List.map_congr_left
    intro c hc
    simp only [Function.comp, id]
    rw [if_pos (h c hc), Char.ofNat_toNat]
  rw [hmap, List.map_id]
  rfl

theorem jsonOfUid_toList (uid : Nat) :
    (jsonOfUid uid).toList =
      Char.ofNat 123 :: Char.ofNat 34 :: 'u' :: 'i' :: 'd' :: Char.ofNat 34 ::
        ':' :: (decimalDigits uid ++ [Char.ofNat 125]) := rfl

theorem jsonOfUid_ascii (uid : Nat) :
    ∀ c ∈ (jsonOfUid uid).toList, c.toNat < 128 := by
  intro c hc
  rw [jsonOfUid_toList] at hc
  simp only [List.mem_cons, List.mem_append, List.mem_singleton,
    List.not_mem_nil, or_false] at hc
  rcases hc with rfl | rfl | rfl | rfl | rfl | rfl | rfl | hd | rfl
  · decide
  · decide
  · decide
  · decide
  · decide
  · decide
  · decide
  · obtain ⟨d, hd10, rfl⟩ := decimalDigits_mem uid c hd
    rw [digitChar_toNat d hd10]
    omega
  · decide

theorem parseStringBody_uid (rest : List Char) :
    parseStringBody ('u' :: 'i' :: 'd' :: Char.ofNat 34 :: rest) =
      some ("uid", rest) := rfl

theorem parseNumBody_digits (uid : Nat) :
    parseNumBody (decimalDigits uid ++ [Char.ofNat 125]) =
      some (uid, [Char.ofNat 125]) := by
  have hall : ∀ c ∈ decimalDigits uid, (fun c : Char => c.isDigit) c = true := by
    intro c hc
    obtain ⟨d, hd10, rfl⟩ := decimalDigits_mem uid c hc
    exact digitChar_isDigit d hd10
  unfold parseNumBody
  rw [takeWhile_append_of_all _ _ _ hall, dropWhile_append_of_all _ _ _ hall]
  have h1 : List.takeWhile (fun c : Char => c.isDigit) [Char.ofNat 125] = [] := rfl
  have h2 : List.dropWhile (fun c : Char => c.isDigit) [Char.ofNat 125] =
      [Char.ofNat 125] := rfl
  rw [h1, h2, List.append_nil]
  have h3 : (decimalDigits uid).isEmpty = false := by
    cases hD : decimalDigits uid with
    | nil => exact absurd hD (decimalDigits_ne_nil uid)
    | cons a t => rfl
  rw [if_neg (by rw [h3]; exact Bool.false_ne_true)]
  rw [decimalDigits_val]
  rfl

theorem parseValue_digits (f uid : Nat) :
    parseValue (f + 1) (decimalDigits uid ++ [Char.ofNat 125]) =
      some (Json.num (uid : Int), [Char.ofNat 125]) := by
  obtain ⟨c0, ds, hD⟩ : ∃ c0 ds, decimalDigits uid = c0 :: ds := by
    cases hD : decimalDigits uid with
    | nil => exact absurd hD (decimalDigits_ne_nil uid)
    | cons a t => exact ⟨a, t, rfl⟩
  obtain ⟨d, hd10, hc0⟩ := decimalDigits_mem uid c0
    (by rw [hD]; exact List.mem_cons_self c0 ds)
  obtain ⟨hws, h123, hbrk, hquo, ht, hf, hn, hminus⟩ := digitChar_dispatch d hd10
  rw [hD, List.cons_append, hc0]
  simp only [parseValue, List.dropWhile_cons, hws, Bool.false_eq_true, if_false,
    h123, hbrk, hquo, ht, hf, hn, hminus]
  rw [← List.cons_append, ← hc0, ← hD, parseNumBody_digits]

theorem parseValue_uidJson (f uid : Nat) :
    parseValue (f + 3) ((jsonOfUid uid).toList) =
      some (Json.obj [("uid", Json.num (uid : Int))], []) := by
  have h1 : parseValue (f + 3) ((jsonOfUid uid).toList) =
      parseObjItems (f + 2)
        (Char.ofNat 34 :: 'u' :: 'i' :: 'd' :: Char.ofNat 34 :: ':' ::
          (decimalDigits uid ++ [Char.ofNat 125])) [] := rfl
  rw [h1]
  rw [show f + 2 = (f + 1) + 1 from rfl]
  simp only [parseObjItems]
  have h0 : List.dropWhile jsonWs
      (Char.ofNat 34 :: 'u' :: 'i' :: 'd' :: Char.ofNat 34 :: ':' ::
        (decimalDigits uid ++ [Char.ofNat 125])) =
      Char.ofNat 34 :: 'u' :: 'i' :: 'd' :: Char.ofNat 34 :: ':' ::
        (decimalDigits uid ++ [Char.ofNat 125]) := rfl
  rw [h0]
  split
  next c rest heq =>
    injection heq with hc hrest
    subst hc
    subst hrest
    rw [if_pos (show (Char.ofNat 34 == Char.ofNat 34) = true from rfl)]
    rw [parseStringBody_uid]
    split
    next k r2 heq2 =>
      injection heq2 with h34
      injection h34 with hk hr2
      subst hk
      subst hr2
      have h2 : List.dropWhile jsonWs
          (':' :: (decimalDigits uid ++ [Char.ofNat 125])) =
          ':' :: (decimalDigits uid ++ [Char.ofNat 125]) := rfl
      rw [h2]
      split
      next r3 heq3 =>
        injection heq3 with hcol hr3
        subst hr3
        rw [parseValue_digits]
        split
        next v r4 heq4 =>
          injection heq4 with h4
          injection h4 with hv hr4
          subst hv
          subst hr4
          rfl
        next heq4 => exact Option.noConfusion heq4
      next x hne heq3 => exact (heq3 _ rfl).elim
    next heq2 => exact Option.noConfusion heq2
  next heq => exact List.noConfusion heq

theorem strBytes_jsonOfUid_lt (uid : Nat) :
    ∀ b ∈ strBytes (jsonOfUid uid), b < 256 := by
  intro b hb
  obtain ⟨c, hc, rfl⟩ := List.mem_map.mp hb
  exact lt_trans (jsonOfUid_ascii uid c hc) (by omega)

theorem jsonParse_uidJson (uid : Nat) :
    jsonParse (jsonOfUid uid) = some (Json.obj [("uid", Json.num (uid : Int))]) := by
  have h1 : 1 ≤ (jsonOfUid uid).length := by
    show 1 ≤ ((jsonOfUid uid).toList).length
    rw [jsonOfUid_toList]
    simp
  have hlen : (jsonOfUid uid).length + 2 = ((jsonOfUid uid).length - 1) + 3 := by
    omega
  unfold jsonParse
  rw [hlen, parseValue_uidJson]
  rfl

theorem encodeCursor_beq_empty (uid : Nat) : (encodeCursor uid == "") = false := by
  apply beq_eq_false_iff_ne.mpr
  intro h
  have h2 : (encodeCursor uid).toList = [] := by rw [h]; rfl
  have h3 : b64EncodeChunks (strBytes (jsonOfUid uid)) = [] := h2
  have hbytes : strBytes (jsonOfUid uid) =
      123 :: 34 :: 117 :: 105 :: 100 :: 34 :: 58 ::
        ((decimalDigits uid ++ [Char.ofNat 125]).map Char.toNat) := rfl
  rw [hbytes] at h3
  rw [b64EncodeChunks] at h3
  exact List.noConfusion h3

theorem decodeCursor_encodeCursor (uid : Nat) :
    decodeCursor (some (encodeCursor uid)) = some (uid : Int) := by
  have hdec : base64urlDecode (encodeCursor uid) = strBytes (jsonOfUid uid) :=
    base64url_roundtrip _ (strBytes_jsonOfUid_lt uid)
  simp only [decodeCursor]
  rw [if_neg (by rw [encodeCursor_beq_empty uid]; exact Bool.false_ne_true)]
  rw [hdec, bytesToStringLenient_strBytes _ (jsonOfUid_ascii uid), jsonParse_uidJson]
  rfl

theorem scanUids_pos (uids : List Nat) (uid : Nat) (h1 : 1 ≤ uid) :
    scanUids uids (some (encodeCursor uid)) =
      (sortByKey (fun u : Nat => (u : Int)) uids).filter
        (fun u : Nat => decide ((uid : Int) < (u : Int))) := by
  simp only [scanUids, decodeCursor_encodeCursor]
  rw [if_neg (by omega : ¬((uid : Nat) : Int) = 0)]

/-- **C10**: the IMAP cursor codec is total and lossless: decoding an encoded
cursor returns the uid, malformed or non-numeric cursors decode to `none`
rather than throwing, and a scan resumed with a returned cursor (whose uid is
a real IMAP uid, hence >= 1) processes only uids strictly greater than it. -/
theorem imap_cursor_codec :
    (∀ uid : Nat, decodeCursor (some (encodeCursor uid)) = some (uid : Int))
    ∧ (∀ uid : Nat, 1 ≤ uid → ∀ uids : List Nat,
        ∀ u ∈ scanUids uids (some (encodeCursor uid)), uid < u)
    ∧ decodeCursor none = none
    ∧ decodeCursor (some "") = none
    ∧ decodeCursor (some "!!*;") = none
    ∧ decodeCursor (some "AAAA") = none
    ∧ decodeCursor (some (base64urlEncode (strBytes "[1,2]"))) = none
    ∧ decodeCursor (some (base64urlEncode (strBytes "null"))) = none
    ∧ decodeCursor (some (base64urlEncode (strBytes "42"))) = none := by
  refine ⟨decodeCursor_encodeCursor, ?_, by decide, by decide, by decide,
    by decide, by decide, by decide, by decide⟩
  intro uid h1 uids u hu
  rw [scanUids_pos uids uid h1] at hu
  have := (List.mem_filter.mp hu).2
  have hlt : (uid : Int) < (u : Int) := of_decide_eq_true this
  exact_mod_cast hlt

theorem imap_cursor_codec_witness :
    decodeCursor (some (encodeCursor 200)) = some 200 ∧ 200 < 201 ∧
      scanUids [5, 300, 100, 201] (some (encodeCursor 200)) = [201, 300] :=
  ⟨imap_cursor_codec.1 200,
   imap_cursor_codec.2.1 200 (by decide) [5, 300, 100, 201] 201 (by decide),
   by decide⟩

end EmailImport
